import Mathlib

/-!
Verification development for the GestureKeyboard predictive-text engine.

The Python sources `trie.py` and `vkeyboard.py` are shallowly embedded below:
strings become `List Char`, Python dicts become association lists with unique
keys, floating-point numbers become real numbers, and code that can raise an
exception returns an `Option`.
-/

namespace GestureKeyboard

/-- Words are modelled as lists of characters (Python strings). -/
abbrev Word := List Char

/-- Unit substitution cost: 0 when the characters agree, 1 otherwise.
Mirrors the `replaceCost` branch of `Trie._searchRecursive`. -/
def delta (a b : Char) : ℕ := if a = b then 0 else 1

/-- Textbook unit-cost edit distance (insertions, deletions, substitutions),
via the standard Wagner-Fischer recurrence. -/
def lev : Word → Word → ℕ
  | [], ys => ys.length
  | _ :: xs, [] => xs.length + 1
  | x :: xs, y :: ys =>
      min (lev xs (y :: ys) + 1) (min (lev (x :: xs) ys + 1) (lev xs ys + delta x y))
termination_by xs ys => xs.length + ys.length

/-! ### The dynamic-programming row of `Trie._searchRecursive` -/
/-- Inner loop of `Trie._searchRecursive` (`for column in xrange(1, columns)`).
Arguments walk the query word and the previous row in lockstep: `pj1` is
`previousRow[column - 1]`, the list argument supplies `previousRow[column]`
onwards, and `ins0` is the entry `currentRow[column - 1]` built so far.  The
two `[]` fallbacks are unreachable when the previous row has length
`len(word) + 1`, the invariant maintained by the search. -/
def rowTail (letter : Char) : Word → ℕ → List ℕ → ℕ → List ℕ
  | [], _, _, _ => []
  | _ :: _, _, [], _ => []
  | c :: cs, pj1, pj :: ps, ins0 =>
      let v := min (ins0 + 1) (min (pj + 1) (pj1 + delta c letter))
      v :: rowTail letter cs pj ps v

/-- The whole row computation of `Trie._searchRecursive`:
`currentRow = [previousRow[0] + 1]` followed by the column loop. -/
def buildRow (letter : Char) (word : Word) (prev : List ℕ) : List ℕ :=
  match prev with
  | [] => []
  | p0 :: ps => (p0 + 1) :: rowTail letter word p0 ps (p0 + 1)

/-- Mathematical value of the row entries strictly after column 0, for the trie
node reached by `s`: entry `i` is the edit distance between `u ++ q2.take (i+1)`
and `s`. -/
def rowSpecFrom (s : Word) : Word → Word → List ℕ
  | _, [] => []
  | u, c :: cs => lev (u ++ [c]) s :: rowSpecFrom s (u ++ [c]) cs

/-- Mathematical value of the full DP row at the node reached by `s`:
entry `j` is the edit distance between the length-`j` query prefix and `s`. -/
def specRow (q s : Word) : List ℕ := lev [] s :: rowSpecFrom s [] q

/-- Python `min` over a non-empty list of naturals (`min(currentRow)`);
the `[]` case is unreachable because rows are never empty. -/
def listMin : List ℕ → ℕ
  | [] => 0
  | [a] => a
  | a :: b :: l => min a (listMin (b :: l))

/-- Python `row[-1]` (`currentRow[-1]`); rows are never empty. -/
def rowLast (l : List ℕ) : ℕ := l.getLastD 0

/-! ### The trie (`trie.py`) -/
/-- `TrieNode` of `trie.py`: an optional terminal `word`, an optional `value`
payload, and a children dict modelled as an association list in insertion
order (keys unique in every reachable state). -/
inductive TrieNode (α : Type) : Type where
  | mk (word : Option Word) (value : Option α) (children : List (Char × TrieNode α))

def TrieNode.word {α} : TrieNode α → Option Word
  | .mk w _ _ => w

def TrieNode.value {α} : TrieNode α → Option α
  | .mk _ v _ => v

def TrieNode.children {α} : TrieNode α → List (Char × TrieNode α)
  | .mk _ _ ch => ch

/-- Dict lookup `node.children[letter]` (also `letter in node.children`). -/
def findChild {α} (ch : List (Char × TrieNode α)) (c : Char) : Option (TrieNode α) :=
  (ch.find? (fun p => p.1 = c)).map (fun p => p.2)

/-- The node reached from `n` by following the characters of `w`
(the walking loop shared by `__getitem__` and `__setitem__`). -/
def nodeGet {α} : TrieNode α → Word → Option (TrieNode α)
  | n, [] => some n
  | n, c :: cs =>
      match findChild n.children c with
      | none => none
      | some child => nodeGet child cs

/-- `Trie`: a root node plus the insertion-ordered word list `self.words`. -/
structure Trie (α : Type) : Type where
  root : TrieNode α
  words : List Word

def Trie.empty {α} : Trie α := ⟨.mk none none [], []⟩

/-- `Trie.__getitem__`: both a missing path and a present node without a value
yield `none` (Python returns `None` in either case). -/
def Trie.get {α} (t : Trie α) (w : Word) : Option α :=
  match nodeGet t.root w with
  | none => none
  | some n => n.value

/-- The `word` field of the node reached by `w`, when that node exists. -/
def wordAt {α} (n : TrieNode α) (w : Word) : Option Word :=
  (nodeGet n w).bind TrieNode.word

/-- Functional form of `__setitem__`'s walk: creates missing children (fresh
nodes with no word and no value, appended at the end of the dict) and sets
`word`/`value` of the final node.  `wfull` is the whole inserted word. -/
def nodeSet {α} : TrieNode α → Word → Word → α → TrieNode α
  | .mk _ _ ch, [], wfull, v => .mk (some wfull) (some v) ch
  | .mk w0 v0 ch, c :: cs, wfull, v =>
      .mk w0 v0
        (if (ch.find? (fun p => p.1 = c)).isSome then
          ch.map (fun p => if p.1 = c then (c, nodeSet p.2 cs wfull v) else p)
        else ch ++ [(c, nodeSet (.mk none none []) cs wfull v)])

/-- `Trie.__setitem__`: walk/create nodes, then append `word` to `self.words`
iff the final node's previous `word` field differed from the inserted word. -/
def Trie.set {α} (t : Trie α) (w : Word) (v : α) : Trie α :=
  { root := nodeSet t.root w w v
    words := if wordAt t.root w = some w then t.words else t.words ++ [w] }

/-- `Trie._searchRecursive`: extend the DP row along edge `letter`, record this
node when `currentRow[-1] <= maxCost`, and recurse into the children when
`min(currentRow) <= maxCost`.  Results pair visited nodes with their row cost,
current node first, children in dict order. -/
def searchRec {α} : TrieNode α → Char → Word → List ℕ → ℕ → List (TrieNode α × ℕ)
  | .mk w v ch, letter, q, prevRow, maxCost =>
    let currentRow := buildRow letter q prevRow
    (if rowLast currentRow ≤ maxCost then [(TrieNode.mk w v ch, rowLast currentRow)] else []) ++
    (if listMin currentRow ≤ maxCost then
      ch.attach.flatMap (fun x => searchRec x.1.2 x.1.1 q currentRow maxCost)
    else [])
termination_by n _ _ _ _ => sizeOf n
decreasing_by
  simp_wf
  have h := List.sizeOf_lt_of_mem x.2
  rcases x with ⟨⟨c2, n2⟩, hx⟩
  simp at h ⊢
  omega

/-- The root loop shared by `search_correction` and `search_prediction`:
the initial row is `range(len(word) + 1)` and each root child is searched. -/
def rootSearch {α} (t : Trie α) (q : Word) (maxCost : ℕ) : List (TrieNode α × ℕ) :=
  t.root.children.flatMap
    (fun p => searchRec p.2 p.1 q (List.range (q.length + 1)) maxCost)

/-- `Trie.search_correction`: keep the visited nodes that carry a word,
pairing the word with the node's row cost. -/
def Trie.search_correction {α} (t : Trie α) (q : Word) (maxCost : ℕ) : List (Word × ℕ) :=
  (rootSearch t q maxCost).filterMap (fun r => r.1.word.map (fun w => (w, r.2)))

/-- The words carried by the nodes of a subtree — the depth-first stack walk of
`search_prediction` (the stack visits children last-first; only the collected
set matters and it is traversal-order independent). -/
def collectSubtree {α} : TrieNode α → List Word
  | .mk w _ ch =>
      w.toList ++ ch.attach.flatMap (fun x => collectSubtree x.1.2)
termination_by n => sizeOf n
decreasing_by
  simp_wf
  have h := List.sizeOf_lt_of_mem x.2
  rcases x with ⟨⟨c2, n2⟩, hx⟩
  simp at h ⊢
  omega

/-- One `totalResults` dict update of `search_prediction`: record `cost` for
`w` when `w` is absent or its recorded cost is larger. -/
def updateMin (acc : List (Word × ℕ)) (w : Word) (cost : ℕ) : List (Word × ℕ) :=
  match acc.find? (fun p => p.1 = w) with
  | none => acc ++ [(w, cost)]
  | some p =>
      if p.2 > cost then acc.map (fun p2 => if p2.1 = w then (w, cost) else p2) else acc

/-- `Trie.search_prediction`: every visited node within `maxCost` is a matched
prefix root; all words in its subtree are recorded with the prefix's row cost,
keeping the minimum when a word is reached repeatedly.  The Python dict is
modelled as an association list (`items()` order is not specified in
Python 2 and no claim depends on it). -/
def Trie.search_prediction {α} (t : Trie α) (q : Word) (maxCost : ℕ) : List (Word × ℕ) :=
  let results := rootSearch t q maxCost
  let pairs := results.flatMap (fun r => (collectSubtree r.1).map (fun w => (w, r.2)))
  pairs.foldl (fun acc p => updateMin acc p.1 p.2) []

/-- Structural well-formedness of a node sitting at path `p` from the root:
the `word` field is empty or equals the path, the `value` field is present
exactly when the `word` field is, children keys are unique, and children are
well-formed at their extended paths.  Every trie built through `__setitem__`
satisfies this. -/
def NodeWF {α} : TrieNode α → Word → Prop
  | .mk w v ch, p =>
      (w = none ∨ w = some p) ∧ (w.isSome = v.isSome) ∧
      (ch.map Prod.fst).Nodup ∧
      ∀ x ∈ ch.attach, NodeWF x.1.2 (p ++ [x.1.1])
termination_by n _ => sizeOf n
decreasing_by
  simp_wf
  have h := List.sizeOf_lt_of_mem x.2
  rcases x with ⟨⟨c2, n2⟩, hx⟩
  simp at h ⊢
  omega

/-- The trie has a terminal node for `w` (a node reached by `w` whose `word`
field is set; under `NodeWF` that field then equals `w`). -/
def TerminalAt {α} (t : Trie α) (w : Word) : Prop := wordAt t.root w = some w

/-- Full invariant of reachable `Trie` states: a well-formed root, the word
list in bijection with the terminal nodes, and no duplicates in the list. -/
def TrieInv {α} (t : Trie α) : Prop :=
  NodeWF t.root [] ∧ (∀ w, w ∈ t.words ↔ TerminalAt t w) ∧ t.words.Nodup

/-! ### The min-keeping dict of `search_prediction` -/
/-- Invariant tying the accumulator dict to the processed pairs: keys are the
processed words, each entry is a processed pair of minimal cost for its word,
and keys are unique. -/
def DictInv (acc processed : List (Word × ℕ)) : Prop :=
  (∀ w2, (∃ d2, (w2, d2) ∈ acc) ↔ ∃ c2, (w2, c2) ∈ processed) ∧
  (∀ w2 d2, (w2, d2) ∈ acc →
    (w2, d2) ∈ processed ∧ ∀ c2, (w2, c2) ∈ processed → d2 ≤ c2) ∧
  (acc.map Prod.fst).Nodup

/-- The trie obtained from the empty trie by a sequence of `__setitem__`
operations (insertion order preserved). -/
def buildTrie {α} (ops : List (Word × α)) : Trie α :=
  ops.foldl (fun t p => t.set p.1 p.2) Trie.empty

/-! ### `vkeyboard.py`: geometry, language model, candidate generation -/
/-- Screen points; Python floats are modelled as real numbers. -/
abbrev Point := ℝ × ℝ

/-- One Euclidean segment length, the expression
`((x1-x0)**2 + (y1-y0)**2)**0.5` used by `val_dist`, `word_sample_n` and
`gesture_distance`. -/
noncomputable def segLen (a b : Point) : ℝ :=
  Real.sqrt ((b.1 - a.1) ^ 2 + (b.2 - a.2) ^ 2)

/-- The total path length computed by `val_dist` (its `tot` accumulator). -/
noncomputable def pathLength (path : List Point) : ℝ :=
  ((path.zip path.tail).map (fun pr => segLen pr.1 pr.2)).sum

/-- The per-word trie value `val_dist(path) + (freq,)`:
`(keyboard path, total length, static corpus frequency)`. -/
abbrev Entry := List Point × ℝ × ℝ

/-- Python dict `d.get(k, 0)` for the session counters. -/
def dictGet {κ : Type} [DecidableEq κ] (d : List (κ × ℕ)) (k : κ) : ℕ :=
  ((d.find? (fun p => p.1 = k)).map (fun p => p.2)).getD 0

/-- Python `len(d)`: the number of (unique) keys. -/
def dictLen {κ : Type} (d : List (κ × ℕ)) : ℕ := d.length

/-- Python `d[k] = d.get(k, 0) + 1`: update in place, or append a new key. -/
def dictIncr {κ : Type} [DecidableEq κ] (d : List (κ × ℕ)) (k : κ) : List (κ × ℕ) :=
  if (d.find? (fun p => p.1 = k)).isSome then
    d.map (fun p => if p.1 = k then (k, p.2 + 1) else p)
  else d ++ [(k, 1)]

/-- The engine state used by the claims: the vocabulary trie and layout
geometry built in `__init__`/`reload_layout`, plus the session language-model
counters.  The text area is external; the previous/current word are passed as
arguments where the source calls `get_previous_word`/`get_current_word`. -/
structure VKeyboard : Type where
  words : Trie Entry
  key_width : ℝ
  key_height : ℝ
  key_centers : Char → Option Point
  user_nograms : ℕ
  user_unigrams : List (Word × ℕ)
  user_bigrams : List ((Word × Word) × ℕ)

/-- `get_ngram_probability` (lines 458-465): additive-smoothed interpolation of
session bigram rate, session unigram rate and the word's stored static
frequency `self.words[word][2]`.  A word with no trie value would make the
Python code fail on `None[2]`, modelled by `none`. -/
noncomputable def get_ngram_probability (kb : VKeyboard) (word prev_word : Word) :
    Option ℝ :=
  let nogram : ℝ := kb.user_nograms
  let bigram : ℝ := dictGet kb.user_bigrams (prev_word, word)
  let unigram1 : ℝ := dictGet kb.user_unigrams prev_word
  let unigram2 : ℝ := dictGet kb.user_unigrams word
  let p := 0.4 * (bigram + 1) / (unigram1 + dictLen kb.user_unigrams) +
    0.1 * (unigram2 + 1) / (nogram + dictLen kb.user_unigrams)
  (kb.words.get word).map (fun e => p + 0.5 * e.2.2)

/-- `candidates.sort(key=lambda x: x[1], reverse=True)`: sort by descending
score (order among equal scores is not claimed). -/
noncomputable def sortByScoreDesc (l : List (Word × ℝ)) : List (Word × ℝ) :=
  List.insertionSort (fun a b => b.2 ≤ a.2) l

/-- `candidate_corrections`: trie correction search with fixed maximum cost 2,
scored `0.001**d * get_ngram_probability(w, prev_word)`, sorted descending. -/
noncomputable def candidate_corrections (kb : VKeyboard) (prev_word word : Word) :
    Option (List (Word × ℝ)) :=
  ((kb.words.search_correction word 2).mapM
    (fun wd => (get_ngram_probability kb wd.1 prev_word).map
      (fun p => (wd.1, (0.001 : ℝ) ^ wd.2 * p)))).map sortByScoreDesc

/-- `candidate_predictions`: identical scoring over the prediction search. -/
noncomputable def candidate_predictions (kb : VKeyboard) (prev_word word : Word) :
    Option (List (Word × ℝ)) :=
  ((kb.words.search_prediction word 2).mapM
    (fun wd => (get_ngram_probability kb wd.1 prev_word).map
      (fun p => (wd.1, (0.001 : ℝ) ^ wd.2 * p)))).map sortByScoreDesc

/-- Python list indexing with negative indices (`path[i]` with `i` possibly
`-1` in `word_sample_n`); out-of-range access raises, modelled by `none`. -/
def pyIdx {β : Type} (l : List β) (i : ℤ) : Option β :=
  if 0 ≤ i then l.get? i.toNat
  else if (l.length : ℤ) + i < 0 then none
  else l.get? ((l.length : ℤ) + i).toNat

/-- `bisect.bisect_left(a, x)` on a sorted list: the number of elements
strictly below `x` (the cumulative-length list of `word_sample_n` is sorted,
its increments being non-negative). -/
noncomputable def bisect_left (a : List ℝ) (x : ℝ) : ℕ :=
  a.countP (fun e => e < x)

/-- The `cum_length` list of `word_sample_n`: 0 followed by cumulative
segment-length sums. -/
noncomputable def cumLength (path : List Point) : List ℝ :=
  (path.zip path.tail).scanl (fun acc pr => acc + segLen pr.1 pr.2) 0

/-- One iteration of the resampling loop of `word_sample_n` (loop variable
`k`).  The division `k * cum_length[-1] / (n - 1)` raises `ZeroDivisionError`
when `n = 1` (the loop body only runs for `n >= 1`), modelled by `none`. -/
noncomputable def samplePoint (path : List Point) (cum : List ℝ) (n k : ℕ) :
    Option Point :=
  match cum.getLast? with
  | none => none
  | some clast =>
    if (n : ℤ) - 1 = 0 then none
    else
      let L : ℝ := min ((k : ℝ) * clast / ((n : ℝ) - 1)) clast
      let i0 : ℤ := bisect_left cum.tail L
      let i : ℤ := if (path.length : ℤ) - 1 ≤ i0 then i0 - 1 else i0
      match pyIdx cum (i + 1), pyIdx cum i, pyIdx path i, pyIdx path (i + 1) with
      | some c1, some c0, some p0, some p1 =>
        let pfrac : ℝ := if c1 = c0 then 0 else (L - c0) / (c1 - c0)
        some (p0.1 + pfrac * (p1.1 - p0.1), p0.2 + pfrac * (p1.2 - p0.2))
      | _, _, _, _ => none

/-- `word_sample_n` (lines 506-521), on the stored path of a word: resample to
`n` points evenly spaced by arc length. -/
noncomputable def word_sample_n (path : List Point) (n : ℕ) : Option (List Point) :=
  let cum := cumLength path
  (List.range n).mapM (fun k => samplePoint path cum n k)

/-- `gesture_distance`: mean per-point Euclidean distance between the gesture
and the word's stored path resampled to the gesture's point count. -/
noncomputable def gesture_distance (kb : VKeyboard) (gesture : List Point)
    (word : Word) : Option ℝ :=
  match kb.words.get word with
  | none => none
  | some e =>
    (word_sample_n e.1 gesture.length).map
      (fun tmpl =>
        ((gesture.zip tmpl).map (fun pr => segLen pr.1 pr.2)).sum / gesture.length)

/-- The three `continue` conditions of the `candidate_matches` loop
(lines 477-481): first/last point deviation beyond one key width/height, or
gesture length outside `[0.8, 1.4]` times the word's stored path length. -/
def matchDiscard (kw kh gl : ℝ) (g0 gN p0 pN : Point) (plen : ℝ) : Prop :=
  (|p0.1 - g0.1| > kw ∨ |p0.2 - g0.2| > kh) ∨
  (|pN.1 - gN.1| > kw ∨ |pN.2 - gN.2| > kh) ∨
  ¬ (0.8 * plen ≤ gl ∧ gl ≤ 1.4 * plen)

open Classical in
/-- The `for word in self.words` loop of `candidate_matches`: look up each
word's entry, access the gesture's and path's first/last points (an empty
gesture or path raises `IndexError` here), apply the filter, and score the
survivors with `exp(-gesture_distance/2) * get_ngram_probability`. -/
noncomputable def matchLoop (kb : VKeyboard) (prev_word : Word)
    (gesture : List Point) (gl : ℝ) : List Word → Option (List (Word × ℝ))
  | [] => some []
  | w :: ws =>
    match kb.words.get w with
    | none => none
    | some e =>
      match e.1.head?, e.1.getLast?, gesture.head?, gesture.getLast? with
      | some p0, some pN, some g0, some gN =>
        if matchDiscard kb.key_width kb.key_height gl g0 gN p0 pN e.2.1 then
          matchLoop kb prev_word gesture gl ws
        else
          match gesture_distance kb gesture w, get_ngram_probability kb w prev_word with
          | some gd, some p =>
            (matchLoop kb prev_word gesture gl ws).map
              (fun rest => (w, Real.exp (-gd / 2) * p) :: rest)
          | _, _ => none
      | _, _, _, _ => none

/-- `candidate_matches` (lines 467-486): the pre-filtered, scored and
descending-sorted gesture candidates. -/
noncomputable def candidate_matches (kb : VKeyboard) (prev_word : Word)
    (gesture : List Point) : Option (List (Word × ℝ)) :=
  (matchLoop kb prev_word gesture (pathLength gesture) kb.words.words).map
    sortByScoreDesc

/-- Python `cur_word.lower()`. -/
def lowerWord (w : Word) : Word := w.map Char.toLower

/-- The word-commit block of `on_touch_up` (lines 1017-1023): on a non-empty
current word, increment the total committed count; insert the lowercased word
(path from the layout's key centers, static frequency 0) when the cased word
is not in the vocabulary word list; increment the cased word's unigram count;
and increment the (previous, current) bigram count when the previous word is
non-empty.  A letter without a key center raises `KeyError`, modelled by
`none`. -/
noncomputable def commit (kb : VKeyboard) (cur_word prev_word : Word) :
    Option VKeyboard :=
  if cur_word = [] then some kb
  else
    let kb1 : VKeyboard := { kb with user_nograms := kb.user_nograms + 1 }
    (if cur_word ∈ kb.words.words then some kb1
     else
       match (lowerWord cur_word).mapM kb.key_centers with
       | none => none
       | some path =>
         some { kb1 with
           words := kb1.words.set (lowerWord cur_word) (path, pathLength path, 0) }).map
      (fun kb2 =>
        let kb3 : VKeyboard :=
          { kb2 with user_unigrams := dictIncr kb2.user_unigrams cur_word }
        if prev_word = [] then kb3
        else { kb3 with
          user_bigrams := dictIncr kb3.user_bigrams (prev_word, cur_word) })

/-! ### Language-model and candidate-generation claims -/
/-- A concrete stored entry used by the example keyboards. -/
noncomputable def entryA : Entry := ([((0 : ℝ), (0 : ℝ))], 0, 0)

/-- A concrete keyboard in its initial session state with the single
vocabulary word "a". -/
noncomputable def kbEx : VKeyboard where
  words := buildTrie [((['a'] : Word), entryA)]
  key_width := 10
  key_height := 10
  key_centers := fun _ => some ((0 : ℝ), (0 : ℝ))
  user_nograms := 1
  user_unigrams := [((['t', 'h', 'e'] : Word), 1)]
  user_bigrams := []

/-- The language-model probability as a plain value (used only to state
results about the candidate lists; defined wherever the option is `some`). -/
noncomputable def ngramD (kb : VKeyboard) (w prev : Word) : ℝ :=
  (get_ngram_probability kb w prev).getD 0

/-! ### The gesture pre-filter (C4) -/
/-- Modelled from the claim's wording (the spec side of C4, for comparison
with the code's `matchDiscard`): its condition (2) places the WORD's stored
path length outside `[0.8, 1.4]` times the GESTURE's length. -/
def claimDiscardC4 (kw kh gl : ℝ) (g0 gN p0 pN : Point) (plen : ℝ) : Prop :=
  (|p0.1 - g0.1| > kw ∨ |p0.2 - g0.2| > kh ∨ |pN.1 - gN.1| > kw ∨ |pN.2 - gN.2| > kh) ∨
  ¬ (0.8 * gl ≤ plen ∧ plen ≤ 1.4 * gl)

/-- A keyboard with an empty vocabulary and fresh session counters, whose
layout assigns every character the key center (0, 0). -/
noncomputable def kbC9 : VKeyboard where
  words := Trie.empty
  key_width := 10
  key_height := 10
  key_centers := fun _ => some ((0 : ℝ), (0 : ℝ))
  user_nograms := 0
  user_unigrams := []
  user_bigrams := []

theorem lev_nil_left (ys : Word) : lev [] ys = ys.length := by rw [lev]

theorem lev_cons_nil (x : Char) (xs : Word) : lev (x :: xs) [] = xs.length + 1 := by
  rw [lev]

theorem lev_cons_cons (x y : Char) (xs ys : Word) :
    lev (x :: xs) (y :: ys) =
      min (lev xs (y :: ys) + 1) (min (lev (x :: xs) ys + 1) (lev xs ys + delta x y)) := by
  rw [lev]

theorem lev_nil_right (xs : Word) : lev xs [] = xs.length := by
  cases xs with
  | nil => rw [lev_nil_left]
  | cons x xs => rw [lev_cons_nil]; rfl

theorem delta_zero_or_one (a b : Char) : delta a b = 0 ∨ delta a b = 1 := by
  unfold delta
  split <;> simp

/-- The edit-distance recurrence also holds at the right ends of both strings:
this is the form propagated by the trie's dynamic-programming rows, which extend
the trie prefix by one character at a time. -/
theorem lev_snoc_snoc (xs ys : Word) (a c : Char) :
    lev (xs ++ [a]) (ys ++ [c]) =
      min (lev xs (ys ++ [c]) + 1)
        (min (lev (xs ++ [a]) ys + 1) (lev xs ys + delta a c)) := by
  induction xs generalizing ys with
  | nil =>
    induction ys with
    | nil =>
      simp only [List.nil_append]
      exact lev_cons_cons a c [] []
    | cons y ys ihy =>
      simp only [List.nil_append, List.cons_append] at ihy ⊢
      simp only [lev_cons_cons, lev_nil_left, List.length_cons, List.length_append,
        List.length_singleton, List.length_nil, ihy]
      simp only [← Nat.add_min_add_right]
      ac_rfl
  | cons x xs ihx =>
    induction ys with
    | nil =>
      have h0 := ihx []
      simp only [List.cons_append, List.nil_append] at h0 ⊢
      simp only [lev_cons_cons, lev_cons_nil, lev_nil_left, lev_nil_right,
        List.length_cons, List.length_append, List.length_singleton, List.length_nil, h0]
      simp only [← Nat.add_min_add_right]
      ac_rfl
    | cons y ys ihy =>
      have h1 := ihx (y :: ys)
      have h2 := ihx ys
      simp only [List.cons_append] at h1 h2 ihy ⊢
      rw [lev_cons_cons x y (xs ++ [a]) (ys ++ [c]), h1, h2, ihy,
        lev_cons_cons x y xs (ys ++ [c]), lev_cons_cons x y (xs ++ [a]) ys,
        lev_cons_cons x y xs ys]
      simp only [← Nat.add_min_add_right]
      ac_rfl

theorem rowSpecFrom_nil_right (q2 u : Word) :
    rowSpecFrom [] u q2 = (List.range q2.length).map (fun i => u.length + i + 1) := by
  induction q2 generalizing u with
  | nil => simp [rowSpecFrom]
  | cons a cs ih =>
    rw [rowSpecFrom, ih]
    simp only [lev_nil_right, List.length_append, List.length_singleton,
      List.length_cons, List.range_succ_eq_map, List.map_cons, List.map_map]
    refine congrArg₂ _ (by simp only [List.length_nil]) (List.map_congr_left fun i _ => ?_)
    simp only [Function.comp, List.length_nil]
    omega

/-- The initial row `range(len(word) + 1)` of both searches is the
mathematical row of the root (empty trie prefix). -/
theorem specRow_nil (q : Word) : specRow q [] = List.range (q.length + 1) := by
  rw [specRow, rowSpecFrom_nil_right, List.range_succ_eq_map]
  refine congrArg₂ _ (by simp [lev_nil_left]) ?_
  refine (List.map_congr_left fun i _ => ?_).symm
  simp only [List.length_nil]
  omega

/-- One step of the search extends the mathematical row by one trie edge. -/
theorem rowTail_spec (c : Char) (s : Word) :
    ∀ (q2 u : Word),
      rowTail c q2 (lev u s) (rowSpecFrom s u q2) (lev u (s ++ [c])) =
        rowSpecFrom (s ++ [c]) u q2 := by
  intro q2
  induction q2 with
  | nil => intro u; rfl
  | cons a cs ih =>
    intro u
    rw [rowSpecFrom, rowSpecFrom, rowTail]
    have hv : min (lev u (s ++ [c]) + 1)
        (min (lev (u ++ [a]) s + 1) (lev u s + delta a c)) =
        lev (u ++ [a]) (s ++ [c]) := (lev_snoc_snoc u s a c).symm
    rw [hv, ih (u ++ [a])]

/-- `buildRow` maps the mathematical row at `s` to the one at `s ++ [c]`. -/
theorem buildRow_specRow (c : Char) (q s : Word) :
    buildRow c q (specRow q s) = specRow q (s ++ [c]) := by
  rw [specRow, buildRow]
  have h0 : lev [] s + 1 = lev [] (s ++ [c]) := by
    simp [lev_nil_left]
  rw [h0, rowTail_spec c s q [], specRow]

theorem listMin_le_of_mem {l : List ℕ} {x : ℕ} (hx : x ∈ l) : listMin l ≤ x := by
  induction l with
  | nil => cases hx
  | cons a t ih =>
    cases t with
    | nil => simp at hx; simp [listMin, hx]
    | cons b t2 =>
      rw [listMin]
      rcases List.mem_cons.mp hx with h | h
      · exact h ▸ min_le_left _ _
      · exact le_trans (min_le_right _ _) (ih h)

theorem le_listMin {l : List ℕ} {b : ℕ} (hne : l ≠ []) (h : ∀ x ∈ l, b ≤ x) :
    b ≤ listMin l := by
  induction l with
  | nil => exact absurd rfl hne
  | cons a t ih =>
    cases t with
    | nil => simpa [listMin] using h a (by simp)
    | cons c t2 =>
      rw [listMin]
      exact le_min (h a (by simp)) (ih (by simp) fun x hx => h x (List.mem_cons_of_mem a hx))

theorem rowTail_lb (letter : Char) (b : ℕ) :
    ∀ (q2 : Word) (pj1 : ℕ) (ps : List ℕ) (ins0 : ℕ),
      b ≤ pj1 → (∀ x ∈ ps, b ≤ x) → b ≤ ins0 →
      ∀ x ∈ rowTail letter q2 pj1 ps ins0, b ≤ x := by
  intro q2
  induction q2 with
  | nil => intro pj1 ps ins0 _ _ _ x hx; cases hx
  | cons a cs ih =>
    intro pj1 ps ins0 h1 h2 h3 x hx
    cases ps with
    | nil => cases hx
    | cons pj ps2 =>
      rw [rowTail] at hx
      rcases List.mem_cons.mp hx with h | h
      · subst h
        have hb1 : b ≤ pj + 1 := le_trans (h2 pj (by simp)) (Nat.le_succ pj)
        refine le_min (le_trans h3 (Nat.le_succ _)) (le_min hb1 (le_trans h1 (Nat.le_add_right _ _)))
      · exact ih pj ps2 _ (h2 pj (by simp))
          (fun y hy => h2 y (List.mem_cons_of_mem pj hy))
          (le_min (le_trans h3 (Nat.le_succ _))
            (le_min (le_trans (h2 pj (by simp)) (Nat.le_succ pj))
              (le_trans h1 (Nat.le_add_right _ _)))) x h

theorem specRow_ne_nil (q s : Word) : specRow q s ≠ [] := by
  simp [specRow]

theorem rowLast_mem {l : List ℕ} (h : l ≠ []) : rowLast l ∈ l := by
  induction l with
  | nil => exact absurd rfl h
  | cons a t ih =>
    cases t with
    | nil => simp [rowLast]
    | cons c t2 =>
      rw [rowLast, List.getLastD_cons]
      exact List.mem_cons_of_mem a (ih (by simp))

theorem rowLast_specRow (q s : Word) : rowLast (specRow q s) = lev q s := by
  have key : ∀ (q2 u : Word), (rowSpecFrom s u q2).getLastD (lev u s) = lev (u ++ q2) s := by
    intro q2
    induction q2 with
    | nil => intro u; simp [rowSpecFrom]
    | cons a cs ih =>
      intro u
      rw [rowSpecFrom, List.getLastD_cons, ih (u ++ [a])]
      simp
  rw [specRow, rowLast, List.getLastD_cons]
  have h := key q []
  simpa using h

theorem listMin_mono_step (c : Char) (q s : Word) :
    listMin (specRow q s) ≤ listMin (specRow q (s ++ [c])) := by
  rw [← buildRow_specRow c q s]
  set b := listMin (specRow q s) with hb
  rw [specRow, buildRow]
  apply le_listMin (by simp)
  intro x hx
  rcases List.mem_cons.mp hx with h | h
  · have : lev [] s ∈ specRow q s := by rw [specRow]; exact List.mem_cons_self _ _
    have := listMin_le_of_mem this
    omega
  · refine rowTail_lb c b q (lev [] s) (rowSpecFrom s [] q) (lev [] s + 1)
      ?_ ?_ ?_ x h
    · exact listMin_le_of_mem (by rw [specRow]; exact List.mem_cons_self _ _)
    · intro y hy
      exact listMin_le_of_mem (by rw [specRow]; exact List.mem_cons_of_mem _ hy)
    · exact le_trans (listMin_le_of_mem (by rw [specRow]; exact List.mem_cons_self _ _)) (Nat.le_succ _)

/-- Pruning is safe: the minimum of the row at a node bounds the edit distance
to every word below that node (`min(currentRow) <= maxCost` check). -/
theorem listMin_le_lev_extend (q : Word) :
    ∀ (u s : Word), listMin (specRow q s) ≤ lev q (s ++ u) := by
  intro u
  induction u with
  | nil =>
    intro s
    have h := listMin_le_of_mem (rowLast_mem (specRow_ne_nil q s))
    rw [rowLast_specRow] at h
    simpa using h
  | cons c u2 ih =>
    intro s
    have h1 := listMin_mono_step c q s
    have h2 := ih (s ++ [c])
    simpa using le_trans h1 h2

/-! ### Structural lemmas about the trie -/
theorem nodeWF_iff {α} (w : Option Word) (v : Option α) (ch : List (Char × TrieNode α))
    (p : Word) :
    NodeWF (.mk w v ch) p ↔
      (w = none ∨ w = some p) ∧ (w.isSome = v.isSome) ∧
      (ch.map Prod.fst).Nodup ∧ ∀ pr ∈ ch, NodeWF pr.2 (p ++ [pr.1]) := by
  rw [NodeWF]
  constructor
  · rintro ⟨h1, h2, h3, h4⟩
    exact ⟨h1, h2, h3, fun pr hpr => h4 ⟨pr, hpr⟩ (List.mem_attach _ _)⟩
  · rintro ⟨h1, h2, h3, h4⟩
    exact ⟨h1, h2, h3, fun x _ => h4 x.1 x.2⟩

theorem trieNode_induction {α} {P : TrieNode α → Prop}
    (h : ∀ w v ch, (∀ pr ∈ ch, P pr.2) → P (.mk w v ch)) : ∀ n, P n
  | .mk w v ch => h w v ch (fun pr hpr => trieNode_induction h pr.2)
termination_by n => sizeOf n
decreasing_by
  have hlt := List.sizeOf_lt_of_mem hpr
  rcases pr with ⟨c2, n2⟩
  simp at hlt ⊢
  omega

theorem mem_of_findChild {α} {ch : List (Char × TrieNode α)} {c : Char} {n : TrieNode α}
    (h : findChild ch c = some n) : (c, n) ∈ ch := by
  unfold findChild at h
  rcases Option.map_eq_some'.mp h with ⟨p, hp, hp2⟩
  have hpred := List.find?_some hp
  have hmem := List.mem_of_find?_eq_some hp
  have : p.1 = c := by simpa using hpred
  cases p
  simp only at this hp2
  subst this
  subst hp2
  exact hmem

theorem findChild_of_mem {α} {ch : List (Char × TrieNode α)} {c : Char} {n : TrieNode α}
    (hnd : (ch.map Prod.fst).Nodup) (hmem : (c, n) ∈ ch) : findChild ch c = some n := by
  induction ch with
  | nil => cases hmem
  | cons p t ih =>
    rcases List.mem_cons.mp hmem with h | h
    · subst h
      simp [findChild, List.find?]
    · have hnd2 : (t.map Prod.fst).Nodup := (List.nodup_cons.mp hnd).2
      have hne : p.1 ≠ c := by
        intro he
        have : c ∈ t.map Prod.fst := List.mem_map.mpr ⟨(c, n), h, rfl⟩
        exact (List.nodup_cons.mp hnd).1 (he ▸ this)
      have := ih hnd2 h
      unfold findChild at this ⊢
      rw [List.find?]
      simp [hne]
      simpa [findChild] using this

theorem nodeGet_append {α} (n : TrieNode α) (r s : Word) :
    nodeGet n (r ++ s) = (nodeGet n r).bind (fun m => nodeGet m s) := by
  induction r generalizing n with
  | nil => simp [nodeGet]
  | cons c cs ih =>
    rw [List.cons_append, nodeGet, nodeGet]
    cases findChild n.children c with
    | none => simp
    | some child => simp [ih child]

theorem nodeWF_child {α} {w : Option Word} {v : Option α} {ch} {p : Word} {c : Char}
    {child : TrieNode α} (hWF : NodeWF (.mk w v ch) p)
    (h : findChild ch c = some child) : NodeWF child (p ++ [c]) :=
  ((nodeWF_iff w v ch p).mp hWF).2.2.2 (c, child) (mem_of_findChild h)

theorem nodeWF_nodeGet {α} : ∀ (r : Word) (n m : TrieNode α) (p : Word),
    NodeWF n p → nodeGet n r = some m → NodeWF m (p ++ r) := by
  intro r
  induction r with
  | nil =>
    intro n m p hWF h
    rw [nodeGet] at h
    cases h
    simpa using hWF
  | cons c cs ih =>
    intro n m p hWF h
    cases n with
    | mk w v ch =>
      rw [nodeGet] at h
      cases hfc : findChild (TrieNode.mk w v ch).children c with
      | none => rw [hfc] at h; cases h
      | some child =>
        rw [hfc] at h
        have hchild : NodeWF child (p ++ [c]) :=
          nodeWF_child hWF (by simpa [TrieNode.children] using hfc)
        have := ih child m (p ++ [c]) hchild h
        simpa using this

/-- Under well-formedness, the `word` field of the node reached by `r` is
either unset or the full path to that node. -/
theorem word_of_nodeGet {α} {n m : TrieNode α} {p r : Word}
    (hWF : NodeWF n p) (h : nodeGet n r = some m) :
    m.word = none ∨ m.word = some (p ++ r) := by
  have := nodeWF_nodeGet r n m p hWF h
  cases m with
  | mk w v ch => exact ((nodeWF_iff w v ch (p ++ r)).mp this).1

/-! ### Characterization of the fuzzy search -/
/-- Complete characterization of `_searchRecursive` on a well-formed subtree:
a pair `(n, d)` is produced exactly when `n` sits at some path `s ++ [c] ++ t`
below the searched child and `d`, its row cost, is the edit distance from the
query to that path, within `maxCost`.  Pruning loses nothing because row
minima only grow along a branch (`listMin_le_lev_extend`). -/
theorem searchRec_mem {α} (q : Word) (k : ℕ) :
    ∀ (node : TrieNode α), ∀ (c : Char) (s : Word), NodeWF node (s ++ [c]) →
      ∀ (n : TrieNode α) (d : ℕ),
        ((n, d) ∈ searchRec node c q (specRow q s) k ↔
          ∃ t : Word, nodeGet node t = some n ∧ d = lev q (s ++ [c] ++ t) ∧ d ≤ k) := by
  intro node
  induction node using trieNode_induction with
  | _ w v ch ih =>
    intro c s hWF n d
    have hnd : (ch.map Prod.fst).Nodup :=
      ((nodeWF_iff w v ch (s ++ [c])).mp hWF).2.2.1
    rw [searchRec]
    simp only [buildRow_specRow, rowLast_specRow]
    constructor
    · intro hmem
      rcases List.mem_append.mp hmem with h | h
      · by_cases hc : lev q (s ++ [c]) ≤ k
        · rw [if_pos hc] at h
          simp only [List.mem_singleton, Prod.mk.injEq] at h
          refine ⟨[], ?_, ?_, h.2 ▸ hc⟩
          · rw [nodeGet, h.1]
          · rw [h.2]
            simp
        · rw [if_neg hc] at h
          cases h
      · by_cases hm : listMin (specRow q (s ++ [c])) ≤ k
        · rw [if_pos hm] at h
          rcases List.mem_flatMap.mp h with ⟨x, hx, hmem2⟩
          rcases x with ⟨⟨c2, child⟩, hxmem⟩
          have hchild : NodeWF child ((s ++ [c]) ++ [c2]) :=
            ((nodeWF_iff w v ch (s ++ [c])).mp hWF).2.2.2 (c2, child) hxmem
          have hiff := ih (c2, child) hxmem c2 (s ++ [c]) hchild n d
          rcases hiff.mp hmem2 with ⟨t2, hget, hd, hk⟩
          refine ⟨c2 :: t2, ?_, ?_, hk⟩
          · rw [nodeGet]
            have hfc : findChild (TrieNode.mk w v ch).children c2 = some child := by
              simpa [TrieNode.children] using findChild_of_mem hnd hxmem
            rw [hfc]
            exact hget
          · rw [hd]
            congr 1
            simp
        · rw [if_neg hm] at h
          cases h
    · rintro ⟨t, hget, hd, hk⟩
      cases t with
      | nil =>
        rw [nodeGet] at hget
        have hn : n = TrieNode.mk w v ch := by
          cases hget; rfl
        have hd2 : d = lev q (s ++ [c]) := by
          rw [hd]; simp
        apply List.mem_append.mpr
        left
        rw [if_pos (hd2 ▸ hk)]
        simp [hn, hd2]
      | cons c2 t2 =>
        rw [nodeGet] at hget
        cases hfc : findChild (TrieNode.mk w v ch).children c2 with
        | none => rw [hfc] at hget; cases hget
        | some child =>
          rw [hfc] at hget
          have hxmem : (c2, child) ∈ ch :=
            mem_of_findChild (by simpa [TrieNode.children] using hfc)
          have hchild : NodeWF child ((s ++ [c]) ++ [c2]) :=
            ((nodeWF_iff w v ch (s ++ [c])).mp hWF).2.2.2 (c2, child) hxmem
          have hd3 : d = lev q ((s ++ [c]) ++ [c2] ++ t2) := by
            rw [hd]; congr 1; simp
          have hm : listMin (specRow q (s ++ [c])) ≤ k := by
            have h1 := listMin_le_lev_extend q (c2 :: t2) (s ++ [c])
            have h2 : lev q ((s ++ [c]) ++ (c2 :: t2)) = d := hd.symm
            omega
          apply List.mem_append.mpr
          right
          rw [if_pos hm]
          apply List.mem_flatMap.mpr
          refine ⟨⟨(c2, child), hxmem⟩, List.mem_attach _ _, ?_⟩
          exact (ih (c2, child) hxmem c2 (s ++ [c]) hchild n d).mpr ⟨t2, hget, hd3, hk⟩

/-- Characterization of the shared root loop: results are the non-root nodes
whose path's edit distance to the query is within `maxCost`. -/
theorem mem_rootSearch {α} {t : Trie α} (hWF : NodeWF t.root []) (q : Word) (k : ℕ)
    (n : TrieNode α) (d : ℕ) :
    (n, d) ∈ rootSearch t q k ↔
      ∃ r : Word, r ≠ [] ∧ nodeGet t.root r = some n ∧ d = lev q r ∧ d ≤ k := by
  unfold rootSearch
  rw [← specRow_nil q]
  cases ht : t.root with
  | mk w v ch =>
    have hnd : (ch.map Prod.fst).Nodup := by
      have := (nodeWF_iff w v ch []).mp (ht ▸ hWF)
      exact this.2.2.1
    constructor
    · intro hmem
      rcases List.mem_flatMap.mp hmem with ⟨⟨c2, child⟩, hxmem, hmem2⟩
      have hchild : NodeWF child ([] ++ [c2]) := by
        have := (nodeWF_iff w v ch []).mp (ht ▸ hWF)
        exact this.2.2.2 (c2, child) (by simpa [TrieNode.children, ht] using hxmem)
      rcases (searchRec_mem q k child c2 [] hchild n d).mp hmem2 with ⟨t2, hget, hd, hk⟩
      refine ⟨c2 :: t2, by simp, ?_, by simpa using hd, hk⟩
      rw [nodeGet]
      have hfc : findChild (TrieNode.mk w v ch).children c2 = some child := by
        simpa [TrieNode.children] using
          findChild_of_mem hnd (by simpa [TrieNode.children, ht] using hxmem)
      rw [hfc]
      exact hget
    · rintro ⟨r, hne, hget, hd, hk⟩
      cases r with
      | nil => exact absurd rfl hne
      | cons c2 t2 =>
        rw [nodeGet] at hget
        cases hfc : findChild (TrieNode.mk w v ch).children c2 with
        | none => rw [hfc] at hget; cases hget
        | some child =>
          rw [hfc] at hget
          have hxmem : (c2, child) ∈ ch :=
            mem_of_findChild (by simpa [TrieNode.children] using hfc)
          have hchild : NodeWF child ([] ++ [c2]) := by
            have := (nodeWF_iff w v ch []).mp (ht ▸ hWF)
            exact this.2.2.2 (c2, child) hxmem
          apply List.mem_flatMap.mpr
          refine ⟨(c2, child), by simpa [TrieNode.children] using hxmem, ?_⟩
          exact (searchRec_mem q k child c2 [] hchild n d).mpr
            ⟨t2, hget, by simpa using hd, hk⟩

/-- Helper characterization of `search_correction` under well-formedness:
the produced pairs are exactly the non-empty terminal words within `maxCost`,
at their true edit distance to the query. -/
theorem mem_search_correction {α} {t : Trie α} (hWF : NodeWF t.root []) (q : Word)
    (k : ℕ) (w : Word) (d : ℕ) :
    (w, d) ∈ t.search_correction q k ↔
      TerminalAt t w ∧ w ≠ [] ∧ d = lev q w ∧ d ≤ k := by
  unfold Trie.search_correction
  rw [List.mem_filterMap]
  constructor
  · rintro ⟨⟨n, d2⟩, hmem, hf⟩
    rcases Option.map_eq_some'.mp hf with ⟨w2, hw2, heq⟩
    have h1 : w2 = w := congrArg Prod.fst heq
    have h2 : d2 = d := congrArg Prod.snd heq
    rw [h1] at hw2
    rw [h2] at hmem
    rcases (mem_rootSearch hWF q k n d).mp hmem with ⟨r, hne, hget, hd, hk⟩
    have hw := word_of_nodeGet hWF hget
    rw [hw2] at hw
    rcases hw with h | h
    · cases h
    · have hwr : w = r := by simpa using h
      subst hwr
      exact ⟨by rw [TerminalAt, wordAt, hget]; simpa using hw2, hne, hd, hk⟩
  · rintro ⟨hterm, hne, hd, hk⟩
    rw [TerminalAt, wordAt] at hterm
    rcases Option.bind_eq_some.mp hterm with ⟨n, hget, hword⟩
    refine ⟨(n, d), (mem_rootSearch hWF q k n d).mpr ⟨w, hne, hget, hd, hk⟩, ?_⟩
    simp [hword]

/-- The words collected from a well-formed subtree are exactly the `word`
fields present below that node. -/
theorem mem_collectSubtree {α} : ∀ (n : TrieNode α) (p : Word), NodeWF n p →
    ∀ w, (w ∈ collectSubtree n ↔ ∃ t2 m, nodeGet n t2 = some m ∧ m.word = some w) := by
  intro n
  induction n using trieNode_induction with
  | _ w0 v ch ih =>
    intro p hWF w
    have hprops := (nodeWF_iff w0 v ch p).mp hWF
    rw [collectSubtree]
    simp only [List.mem_append, List.mem_flatMap]
    constructor
    · rintro (h | h)
      · refine ⟨[], TrieNode.mk w0 v ch, by rw [nodeGet], ?_⟩
        cases w0 with
        | none => cases h
        | some s => simpa [TrieNode.word] using (by simpa using h : w = s).symm
      · rcases h with ⟨x, hx, hmem⟩
        rcases x with ⟨⟨c2, child⟩, hxmem⟩
        rcases (ih (c2, child) hxmem (p ++ [c2]) (hprops.2.2.2 (c2, child) hxmem) w).mp hmem
          with ⟨t2, m, hget, hword⟩
        refine ⟨c2 :: t2, m, ?_, hword⟩
        rw [nodeGet]
        have hfc : findChild (TrieNode.mk w0 v ch).children c2 = some child := by
          simpa [TrieNode.children] using findChild_of_mem hprops.2.2.1 hxmem
        rw [hfc]
        exact hget
    · rintro ⟨t2, m, hget, hword⟩
      cases t2 with
      | nil =>
        left
        rw [nodeGet] at hget
        cases hget
        simp [TrieNode.word] at hword
        simp [hword]
      | cons c2 t3 =>
        right
        rw [nodeGet] at hget
        cases hfc : findChild (TrieNode.mk w0 v ch).children c2 with
        | none => rw [hfc] at hget; cases hget
        | some child =>
          rw [hfc] at hget
          have hxmem : (c2, child) ∈ ch :=
            mem_of_findChild (by simpa [TrieNode.children] using hfc)
          refine ⟨⟨(c2, child), hxmem⟩, List.mem_attach _ _, ?_⟩
          exact (ih (c2, child) hxmem (p ++ [c2]) (hprops.2.2.2 (c2, child) hxmem) w).mpr
            ⟨t3, m, hget, hword⟩

theorem replace_keys (acc : List (Word × ℕ)) (w0 : Word) (c0 : ℕ) :
    (acc.map (fun p2 => if p2.1 = w0 then (w0, c0) else p2)).map Prod.fst =
      acc.map Prod.fst := by
  rw [List.map_map]
  refine List.map_congr_left fun p2 _ => ?_
  by_cases h : p2.1 = w0 <;> simp [h]

theorem mem_replace_iff (acc : List (Word × ℕ)) (w0 : Word) (c0 : ℕ)
    (hnd : (acc.map Prod.fst).Nodup) (w2 : Word) (d2 : ℕ) :
    ((w2, d2) ∈ acc.map (fun p2 => if p2.1 = w0 then (w0, c0) else p2) ↔
      (w2 = w0 ∧ d2 = c0 ∧ w0 ∈ acc.map Prod.fst) ∨ (w2 ≠ w0 ∧ (w2, d2) ∈ acc)) := by
  induction acc with
  | nil => simp
  | cons p t ih =>
    have hnd2 : (t.map Prod.fst).Nodup := (List.nodup_cons.mp hnd).2
    have hnotin : p.1 ∉ t.map Prod.fst := (List.nodup_cons.mp hnd).1
    simp only [List.map_cons, List.mem_cons]
    rw [ih hnd2]
    by_cases hp : p.1 = w0
    · have hw0t : w0 ∉ t.map Prod.fst := hp ▸ hnotin
      rw [if_pos hp]
      constructor
      · rintro (h | h)
        · injection h with h1 h2
          exact Or.inl ⟨h1, h2, Or.inl hp.symm⟩
        · rcases h with ⟨h1, h2, h3⟩ | ⟨h1, h2⟩
          · exact absurd h3 hw0t
          · exact Or.inr ⟨h1, Or.inr h2⟩
      · rintro (⟨h1, h2, _⟩ | ⟨h1, h2⟩)
        · exact Or.inl (by rw [h1, h2])
        · rcases h2 with h3 | h3
          · exact absurd ((congrArg Prod.fst h3).trans hp) h1
          · exact Or.inr (Or.inr ⟨h1, h3⟩)
    · rw [if_neg hp]
      constructor
      · rintro (h | h)
        · have h1 : w2 ≠ w0 := by
            rw [show w2 = p.1 from congrArg Prod.fst h]
            exact hp
          exact Or.inr ⟨h1, Or.inl h⟩
        · rcases h with ⟨h1, h2, h3⟩ | ⟨h1, h2⟩
          · exact Or.inl ⟨h1, h2, Or.inr h3⟩
          · exact Or.inr ⟨h1, Or.inr h2⟩
      · rintro (⟨h1, h2, h3⟩ | ⟨h1, h2⟩)
        · rcases h3 with h4 | h4
          · exact absurd h4.symm hp
          · exact Or.inr (Or.inl ⟨h1, h2, h4⟩)
        · rcases h2 with h3 | h3
          · exact Or.inl h3
          · exact Or.inr (Or.inr ⟨h1, h3⟩)

theorem assoc_unique {l : List (Word × ℕ)} (hnd : (l.map Prod.fst).Nodup)
    {w : Word} {a b : ℕ} (ha : (w, a) ∈ l) (hb : (w, b) ∈ l) : a = b := by
  induction l with
  | nil => cases ha
  | cons p t ih =>
    have hnotin : p.1 ∉ t.map Prod.fst := (List.nodup_cons.mp hnd).1
    rcases List.mem_cons.mp ha with h1 | h1 <;> rcases List.mem_cons.mp hb with h2 | h2
    · rw [← h2] at h1
      injection h1
    · exact absurd (List.mem_map.mpr ⟨(w, b), h2, by simpa using congrArg Prod.fst h1⟩) hnotin
    · exact absurd (List.mem_map.mpr ⟨(w, a), h1, by simpa using congrArg Prod.fst h2⟩) hnotin
    · exact ih (List.nodup_cons.mp hnd).2 h1 h2

theorem exists_mem_iff_key {l : List (Word × ℕ)} {w : Word} :
    (∃ d, (w, d) ∈ l) ↔ w ∈ l.map Prod.fst := by
  constructor
  · rintro ⟨d, hd⟩
    exact List.mem_map.mpr ⟨(w, d), hd, rfl⟩
  · intro h
    rcases List.mem_map.mp h with ⟨p, hp, he⟩
    subst he
    exact ⟨p.2, hp⟩

theorem updateMin_inv {acc processed : List (Word × ℕ)} (w0 : Word) (c0 : ℕ)
    (hinv : DictInv acc processed) :
    DictInv (updateMin acc w0 c0) (processed ++ [(w0, c0)]) := by
  obtain ⟨h1, h2, h3⟩ := hinv
  unfold updateMin
  cases hfind : acc.find? (fun p => p.1 = w0) with
  | none =>
    have habs : ∀ x ∈ acc, x.1 ≠ w0 := by
      intro x hx
      have := List.find?_eq_none.mp hfind x hx
      simpa using this
    have hkey : w0 ∉ acc.map Prod.fst := by
      intro hc
      rcases List.mem_map.mp hc with ⟨p, hp, he⟩
      exact habs p hp he
    refine ⟨?_, ?_, ?_⟩
    · intro w2
      simp only [List.mem_append, List.mem_singleton]
      constructor
      · rintro ⟨d2, h | h⟩
        · rcases (h1 w2).mp ⟨d2, h⟩ with ⟨c2, hc2⟩
          exact ⟨c2, Or.inl hc2⟩
        · injection h with ha hb
          exact ⟨c0, Or.inr (by rw [ha])⟩
      · rintro ⟨c2, h | h⟩
        · rcases (h1 w2).mpr ⟨c2, h⟩ with ⟨d2, hd2⟩
          exact ⟨d2, Or.inl hd2⟩
        · injection h with ha hb
          exact ⟨c0, Or.inr (by rw [ha])⟩
    · intro w2 d2 hmem
      rcases List.mem_append.mp hmem with h | h
      · obtain ⟨hp2, hmin⟩ := h2 w2 d2 h
        refine ⟨List.mem_append_left _ hp2, ?_⟩
        intro c2 hc2
        rcases List.mem_append.mp hc2 with hc | hc
        · exact hmin c2 hc
        · have hw2 : w2 = w0 := by
            have := List.mem_singleton.mp hc
            exact congrArg Prod.fst this
          exact absurd hw2 (habs (w2, d2) h)
      · have he := List.mem_singleton.mp h
        injection he with ha hb
        subst ha
        subst hb
        refine ⟨List.mem_append_right _ (List.mem_singleton.mpr rfl), ?_⟩
        intro c2 hc2
        rcases List.mem_append.mp hc2 with hc | hc
        · exact absurd (exists_mem_iff_key.mp ((h1 w2).mpr ⟨c2, hc⟩)) hkey
        · have := List.mem_singleton.mp hc
          injection this with h5 h6
          omega
    · rw [List.map_append]
      simp only [List.map_singleton]
      exact List.nodup_append.mpr ⟨h3, List.nodup_singleton _, by
        intro a ha hb
        have : a = w0 := List.mem_singleton.mp hb
        exact hkey (this ▸ ha)⟩
  | some p =>
    have hpmem : p ∈ acc := List.mem_of_find?_eq_some hfind
    have hp1 : p.1 = w0 := by simpa using List.find?_some hfind
    have hkey : w0 ∈ acc.map Prod.fst := List.mem_map.mpr ⟨p, hpmem, hp1⟩
    have hpacc : (w0, p.2) ∈ acc := by
      rw [← hp1]
      exact hpmem
    by_cases hcmp : p.2 > c0
    · dsimp only
      rw [if_pos hcmp]
      refine ⟨?_, ?_, ?_⟩
      · intro w2
        rw [exists_mem_iff_key, replace_keys, ← exists_mem_iff_key]
        simp only [List.mem_append, List.mem_singleton]
        constructor
        · rintro ⟨d2, hd2⟩
          rcases (h1 w2).mp ⟨d2, hd2⟩ with ⟨c2, hc2⟩
          exact ⟨c2, Or.inl hc2⟩
        · rintro ⟨c2, h | h⟩
          · exact (h1 w2).mpr ⟨c2, h⟩
          · injection h with ha hb
            exact ha ▸ ⟨p.2, hpacc⟩
      · intro w2 d2 hmem
        rcases (mem_replace_iff acc w0 c0 h3 w2 d2).mp hmem with ⟨ha, hb, _⟩ | ⟨ha, hb⟩
        · subst ha
          subst hb
          refine ⟨List.mem_append_right _ (List.mem_singleton.mpr rfl), ?_⟩
          intro c2 hc2
          rcases List.mem_append.mp hc2 with hc | hc
          · have := (h2 w2 p.2 hpacc).2 c2 hc
            omega
          · have := List.mem_singleton.mp hc
            injection this with h5 h6
            omega
        · obtain ⟨hp2, hmin⟩ := h2 w2 d2 hb
          refine ⟨List.mem_append_left _ hp2, ?_⟩
          intro c2 hc2
          rcases List.mem_append.mp hc2 with hc | hc
          · exact hmin c2 hc
          · exact absurd (congrArg Prod.fst (List.mem_singleton.mp hc)) ha
      · rw [replace_keys]
        exact h3
    · dsimp only
      rw [if_neg hcmp]
      refine ⟨?_, ?_, h3⟩
      · intro w2
        simp only [List.mem_append, List.mem_singleton]
        constructor
        · rintro ⟨d2, hd2⟩
          rcases (h1 w2).mp ⟨d2, hd2⟩ with ⟨c2, hc2⟩
          exact ⟨c2, Or.inl hc2⟩
        · rintro ⟨c2, h | h⟩
          · exact (h1 w2).mpr ⟨c2, h⟩
          · injection h with ha hb
            exact ha ▸ ⟨p.2, hpacc⟩
      · intro w2 d2 hmem
        obtain ⟨hp2, hmin⟩ := h2 w2 d2 hmem
        refine ⟨List.mem_append_left _ hp2, ?_⟩
        intro c2 hc2
        rcases List.mem_append.mp hc2 with hc | hc
        · exact hmin c2 hc
        · have he := List.mem_singleton.mp hc
          injection he with h5 h6
          subst h5
          subst h6
          have : d2 = p.2 := assoc_unique h3 hmem hpacc
          omega

theorem foldl_updateMin_inv :
    ∀ (rest acc processed : List (Word × ℕ)), DictInv acc processed →
      DictInv (rest.foldl (fun a p => updateMin a p.1 p.2) acc) (processed ++ rest) := by
  intro rest
  induction rest with
  | nil =>
    intro acc processed h
    simpa using h
  | cons p rest2 ih =>
    intro acc processed h
    rw [List.foldl_cons]
    have step := updateMin_inv p.1 p.2 h
    have := ih (updateMin acc p.1 p.2) (processed ++ [(p.1, p.2)]) (by simpa using step)
    simpa [List.append_assoc] using this

theorem dictInv_nil : DictInv [] [] := by
  refine ⟨by simp, by simp, by simp⟩

/-- Characterization of the `totalResults` dict of `search_prediction`:
the final entries are the pairs of minimal cost per word. -/
theorem dedup_mem (pairs : List (Word × ℕ)) (w : Word) (d : ℕ) :
    ((w, d) ∈ pairs.foldl (fun a p => updateMin a p.1 p.2) [] ↔
      ((w, d) ∈ pairs ∧ ∀ c, (w, c) ∈ pairs → d ≤ c)) := by
  have hinv := foldl_updateMin_inv pairs [] [] dictInv_nil
  rw [List.nil_append] at hinv
  constructor
  · intro h
    exact hinv.2.1 w d h
  · rintro ⟨hmem, hmin⟩
    obtain ⟨d2, hd2⟩ := (hinv.1 w).mpr ⟨d, hmem⟩
    obtain ⟨hd2mem, hd2min⟩ := hinv.2.1 w d2 hd2
    have : d = d2 := le_antisymm (hmin d2 hd2mem) (hd2min d hmem)
    exact this ▸ hd2

/-- Characterization of the matched-prefix pairs of `search_prediction` before
the dict pass: `(w2, c2)` occurs iff `w2` is a stored word having a non-empty
prefix within `maxCost` whose edit distance to the query is `c2`. -/
theorem mem_predPairs {α} {t : Trie α} (hWF : NodeWF t.root []) (q : Word) (k : ℕ)
    (w2 : Word) (c2 : ℕ) :
    ((w2, c2) ∈ (rootSearch t q k).flatMap
        (fun r => (collectSubtree r.1).map (fun w3 => (w3, r.2))) ↔
      (TerminalAt t w2 ∧ ∃ r, r ≠ [] ∧ r <+: w2 ∧ lev q r ≤ k ∧ c2 = lev q r)) := by
  rw [List.mem_flatMap]
  constructor
  · rintro ⟨⟨n, c3⟩, hmem, hmem2⟩
    rcases List.mem_map.mp hmem2 with ⟨w3, hw3, heq⟩
    have hw : w3 = w2 := congrArg Prod.fst heq
    have hc : c3 = c2 := congrArg Prod.snd heq
    rw [hw] at hw3
    rw [hc] at hmem
    rcases (mem_rootSearch hWF q k n c2).mp hmem with ⟨r, hne, hget, hd, hk⟩
    have hWFn : NodeWF n r := by simpa using nodeWF_nodeGet r t.root n [] hWF hget
    rcases (mem_collectSubtree n r hWFn w2).mp hw3 with ⟨t2, m, hget2, hword⟩
    have hgetw : nodeGet t.root (r ++ t2) = some m := by
      rw [nodeGet_append, hget]
      exact hget2
    have hwm := word_of_nodeGet hWF hgetw
    rw [hword] at hwm
    rcases hwm with h | h
    · cases h
    · have hw2rt : w2 = r ++ t2 := by simpa using h
      refine ⟨?_, r, hne, ⟨t2, hw2rt.symm⟩, hd ▸ hk, hd⟩
      rw [TerminalAt, wordAt, hw2rt, hgetw]
      simpa [hw2rt] using hword
  · rintro ⟨hterm, r, hne, hpre, hlevk, hc⟩
    obtain ⟨t2, ht2⟩ := hpre
    rw [TerminalAt, wordAt] at hterm
    rcases Option.bind_eq_some.mp hterm with ⟨m, hgetm, hwordm⟩
    have hsplit : (nodeGet t.root r).bind (fun n2 => nodeGet n2 t2) = some m := by
      rw [← nodeGet_append, ht2]
      exact hgetm
    rcases Option.bind_eq_some.mp hsplit with ⟨n, hgetn, hgetm2⟩
    refine ⟨(n, lev q r),
      (mem_rootSearch hWF q k n (lev q r)).mpr ⟨r, hne, hgetn, rfl, hlevk⟩, ?_⟩
    apply List.mem_map.mpr
    refine ⟨w2, ?_, by rw [hc]⟩
    have hWFn : NodeWF n r := by simpa using nodeWF_nodeGet r t.root n [] hWF hgetn
    exact (mem_collectSubtree n r hWFn w2).mpr ⟨t2, m, hgetm2, hwordm⟩

/-- Helper characterization of `search_prediction` under well-formedness:
`(w, d)` is returned iff `w` is a stored word with a matched non-empty prefix
and `d` is the least row cost among its matched prefixes. -/
theorem mem_search_prediction {α} {t : Trie α} (hWF : NodeWF t.root []) (q : Word)
    (k : ℕ) (w : Word) (d : ℕ) :
    (w, d) ∈ t.search_prediction q k ↔
      (TerminalAt t w ∧
        (∃ r, r ≠ [] ∧ r <+: w ∧ lev q r ≤ k ∧ lev q r = d) ∧
        ∀ r, r ≠ [] → r <+: w → lev q r ≤ k → d ≤ lev q r) := by
  rw [Trie.search_prediction]
  rw [dedup_mem]
  constructor
  · rintro ⟨hmem, hmin⟩
    rcases (mem_predPairs hWF q k w d).mp hmem with ⟨hterm, r, hne, hpre, hlevk, hc⟩
    refine ⟨hterm, ⟨r, hne, hpre, hlevk, hc.symm⟩, ?_⟩
    intro r2 hne2 hpre2 hlevk2
    exact hmin (lev q r2)
      ((mem_predPairs hWF q k w (lev q r2)).mpr ⟨hterm, r2, hne2, hpre2, hlevk2, rfl⟩)
  · rintro ⟨hterm, ⟨r, hne, hpre, hlevk, hd⟩, hmin⟩
    refine ⟨(mem_predPairs hWF q k w d).mpr ⟨hterm, r, hne, hpre, hlevk, hd.symm⟩, ?_⟩
    intro c hc
    rcases (mem_predPairs hWF q k w c).mp hc with ⟨_, r2, hne2, hpre2, hlevk2, hc2⟩
    exact hc2 ▸ hmin r2 hne2 hpre2 hlevk2

/-! ### `__setitem__`: get/set laws and invariant preservation -/
theorem findChild_map_update {α} (ch : List (Char × TrieNode α)) (c : Char)
    (g : TrieNode α → TrieNode α) :
    findChild (ch.map (fun p => if p.1 = c then (c, g p.2) else p)) c =
      (findChild ch c).map g := by
  induction ch with
  | nil => rfl
  | cons p t ih =>
    by_cases hp : p.1 = c
    · rw [List.map_cons, if_pos hp]
      unfold findChild
      rw [List.find?_cons_of_pos _ (by simp), List.find?_cons_of_pos _ (by simp [hp])]
      simp
    · rw [List.map_cons, if_neg hp]
      unfold findChild
      rw [List.find?_cons_of_neg _ (by simp [hp]), List.find?_cons_of_neg _ (by simp [hp])]
      exact ih

theorem findChild_map_other {α} (ch : List (Char × TrieNode α)) (c c' : Char)
    (hne : c' ≠ c) (g : TrieNode α → TrieNode α) :
    findChild (ch.map (fun p => if p.1 = c then (c, g p.2) else p)) c' =
      findChild ch c' := by
  induction ch with
  | nil => rfl
  | cons p t ih =>
    by_cases hp : p.1 = c
    · rw [List.map_cons, if_pos hp]
      unfold findChild
      rw [List.find?_cons_of_neg _ (by simp [Ne.symm hne]),
        List.find?_cons_of_neg _ (by simp [hp, Ne.symm hne])]
      exact ih
    · rw [List.map_cons, if_neg hp]
      by_cases hp2 : p.1 = c'
      · unfold findChild
        rw [List.find?_cons_of_pos _ (by simp [hp2]), List.find?_cons_of_pos _ (by simp [hp2])]
      · unfold findChild
        rw [List.find?_cons_of_neg _ (by simp [hp2]), List.find?_cons_of_neg _ (by simp [hp2])]
        exact ih

theorem findChild_append_self {α} (ch : List (Char × TrieNode α)) (c : Char)
    (m : TrieNode α) (h : ch.find? (fun p => p.1 = c) = none) :
    findChild (ch ++ [(c, m)]) c = some m := by
  unfold findChild
  rw [List.find?_append, h]
  rw [List.find?_cons_of_pos _ (by simp)]
  rfl

theorem findChild_append_other {α} (ch : List (Char × TrieNode α)) (c c' : Char)
    (m : TrieNode α) (hne : c' ≠ c) :
    findChild (ch ++ [(c, m)]) c' = findChild ch c' := by
  unfold findChild
  rw [List.find?_append]
  rw [List.find?_cons_of_neg _ (by simp [Ne.symm hne]), List.find?_nil]
  cases ch.find? (fun p => p.1 = c') <;> rfl

/-- The children of `nodeSet` at the walked letter: the updated or fresh child. -/
theorem findChild_nodeSet {α} (w0 : Option Word) (v0 : Option α) (ch : List (Char × TrieNode α))
    (c : Char) (cs wfull : Word) (v : α) :
    findChild (nodeSet (.mk w0 v0 ch) (c :: cs) wfull v).children c =
      some (nodeSet ((findChild ch c).getD (.mk none none [])) cs wfull v) := by
  rw [nodeSet]
  cases hf : ch.find? (fun p => p.1 = c) with
  | none =>
    rw [TrieNode.children]
    simp only [Option.isSome_none, Bool.false_eq_true, if_false]
    rw [findChild_append_self ch c _ hf]
    have h2 : findChild ch c = none := by unfold findChild; rw [hf]; rfl
    rw [h2]
    rfl
  | some p =>
    rw [TrieNode.children]
    simp only [Option.isSome_some, if_true]
    rw [findChild_map_update ch c (fun n2 => nodeSet n2 cs wfull v)]
    have h2 : findChild ch c = some p.2 := by unfold findChild; rw [hf]; rfl
    rw [h2]
    rfl

theorem findChild_nodeSet_other {α} (w0 : Option Word) (v0 : Option α)
    (ch : List (Char × TrieNode α)) (c c' : Char) (hne : c' ≠ c) (cs wfull : Word) (v : α) :
    findChild (nodeSet (.mk w0 v0 ch) (c :: cs) wfull v).children c' =
      findChild ch c' := by
  rw [nodeSet]
  cases hf : ch.find? (fun p => p.1 = c) with
  | none =>
    rw [TrieNode.children]
    simp only [Option.isSome_none, Bool.false_eq_true, if_false]
    exact findChild_append_other ch c c' _ hne
  | some p =>
    rw [TrieNode.children]
    simp only [Option.isSome_some, if_true]
    exact findChild_map_other ch c c' hne (fun n2 => nodeSet n2 cs wfull v)

/-- Walking the inserted word after `nodeSet` reaches a terminal node holding
the inserted word and value. -/
theorem nodeSet_walk {α} (wfull : Word) (v : α) :
    ∀ (cs : Word) (n : TrieNode α),
      ∃ m, nodeGet (nodeSet n cs wfull v) cs = some m ∧
        m.word = some wfull ∧ m.value = some v := by
  intro cs
  induction cs with
  | nil =>
    intro n
    cases n with
    | mk w0 v0 ch =>
      exact ⟨.mk (some wfull) (some v) ch, by rw [nodeSet, nodeGet], rfl, rfl⟩
  | cons c cs2 ih =>
    intro n
    cases n with
    | mk w0 v0 ch =>
      rcases ih ((findChild ch c).getD (.mk none none [])) with ⟨m, hget, hw, hv⟩
      refine ⟨m, ?_, hw, hv⟩
      rw [nodeGet, findChild_nodeSet]
      exact hget

/-- Off the inserted path, a freshly created chain reaches only nodes without
word or value (or no node at all). -/
theorem nodeSet_fresh_other {α} (wfull : Word) (v : α) :
    ∀ (cs cs' : Word), cs' ≠ cs →
      nodeGet (nodeSet (α := α) (.mk none none []) cs wfull v) cs' = none ∨
      ∃ m, nodeGet (nodeSet (α := α) (.mk none none []) cs wfull v) cs' = some m ∧
        m.word = none ∧ m.value = none := by
  intro cs
  induction cs with
  | nil =>
    intro cs' hne
    cases cs' with
    | nil => exact absurd rfl hne
    | cons c' r =>
      left
      rw [nodeSet, nodeGet]
      have : findChild (α := α) [] c' = none := rfl
      rw [TrieNode.children, this]
  | cons c cs2 ih =>
    intro cs' hne
    cases cs' with
    | nil =>
      right
      refine ⟨_, by rw [nodeGet], ?_, ?_⟩ <;> rw [nodeSet] <;>
        cases hf : (([] : List (Char × TrieNode α)).find? (fun p => p.1 = c)).isSome <;> rfl
    | cons c' r =>
      by_cases hc : c' = c
      · subst hc
        have hr : r ≠ cs2 := fun h => hne (by rw [h])
        rw [nodeGet, findChild_nodeSet]
        have hfc : findChild (α := α) [] c' = none := rfl
        rw [hfc, Option.getD_none]
        exact ih r hr
      · left
        rw [nodeGet, findChild_nodeSet_other _ _ _ _ _ hc]
        rfl

/-- `nodeSet` leaves the `word` and `value` fields of every other path
unchanged (treating missing nodes as having neither). -/
theorem nodeSet_other {α} (wfull : Word) (v : α) :
    ∀ (cs cs' : Word) (n : TrieNode α), cs' ≠ cs →
      (nodeGet (nodeSet n cs wfull v) cs').bind TrieNode.word =
        (nodeGet n cs').bind TrieNode.word ∧
      (nodeGet (nodeSet n cs wfull v) cs').bind TrieNode.value =
        (nodeGet n cs').bind TrieNode.value := by
  intro cs
  induction cs with
  | nil =>
    intro cs' n hne
    cases n with
    | mk w0 v0 ch =>
      cases cs' with
      | nil => exact absurd rfl hne
      | cons c' r =>
        rw [nodeSet]
        constructor <;> rw [nodeGet, nodeGet] <;> rfl
  | cons c cs2 ih =>
    intro cs' n hne
    cases n with
    | mk w0 v0 ch =>
      cases cs' with
      | nil =>
        rw [nodeGet, nodeGet, nodeSet]
        cases hf : (ch.find? (fun p => p.1 = c)).isSome <;>
          exact ⟨rfl, rfl⟩
      | cons c' r =>
        by_cases hc : c' = c
        · subst hc
          have hr : r ≠ cs2 := fun h => hne (by rw [h])
          rw [nodeGet, nodeGet, findChild_nodeSet, TrieNode.children]
          cases hfc : findChild ch c' with
          | none =>
            simp only [Option.getD_none]
            rcases nodeSet_fresh_other wfull v cs2 r hr with h | ⟨m, hm, hw, hv⟩
            · rw [h]
              exact ⟨rfl, rfl⟩
            · rw [hm]
              simp [hw, hv, Option.bind]
          | some child =>
            simp only [Option.getD_some]
            have := ih r child hr
            simpa using this
        · rw [nodeGet, nodeGet, findChild_nodeSet_other _ _ _ _ _ hc, TrieNode.children]
          exact ⟨rfl, rfl⟩

theorem children_keys_update {α} (ch : List (Char × TrieNode α)) (c : Char)
    (g : TrieNode α → TrieNode α) :
    (ch.map (fun p => if p.1 = c then (c, g p.2) else p)).map Prod.fst =
      ch.map Prod.fst := by
  rw [List.map_map]
  refine List.map_congr_left fun p2 _ => ?_
  by_cases h : p2.1 = c <;> simp [h]

theorem nodeWF_empty {α} (p : Word) : NodeWF (α := α) (.mk none none []) p := by
  rw [nodeWF_iff]
  simp

theorem nodeSet_WF {α} (v : α) : ∀ (cs p : Word) (n : TrieNode α),
    NodeWF n p → NodeWF (nodeSet n cs (p ++ cs) v) p := by
  intro cs
  induction cs with
  | nil =>
    intro p n hWF
    cases n with
    | mk w0 v0 ch =>
      obtain ⟨h1, h2, h3, h4⟩ := (nodeWF_iff w0 v0 ch p).mp hWF
      rw [nodeSet, nodeWF_iff]
      exact ⟨Or.inr (by simp), rfl, h3, h4⟩
  | cons c cs2 ih =>
    intro p n hWF
    cases n with
    | mk w0 v0 ch =>
      obtain ⟨h1, h2, h3, h4⟩ := (nodeWF_iff w0 v0 ch p).mp hWF
      by_cases hf : (ch.find? (fun p2 => p2.1 = c)).isSome = true
      · rw [nodeSet, if_pos hf, nodeWF_iff]
        refine ⟨h1, h2,
          by rw [children_keys_update ch c (fun n2 => nodeSet n2 cs2 (p ++ c :: cs2) v)]
             exact h3, ?_⟩
        intro pr hpr
        rcases List.mem_map.mp hpr with ⟨p2, hp2, he⟩
        by_cases hpc : p2.1 = c
        · rw [if_pos hpc] at he
          rw [← he]
          have hWF2 : NodeWF p2.2 (p ++ [c]) := by
            have := h4 p2 hp2
            rwa [hpc] at this
          have := ih (p ++ [c]) p2.2 hWF2
          simpa using this
        · rw [if_neg hpc] at he
          rw [← he]
          exact h4 p2 hp2
      · have hfe : ch.find? (fun p2 => p2.1 = c) = none :=
          Option.not_isSome_iff_eq_none.mp (by simpa using hf)
        have hnotin : c ∉ ch.map Prod.fst := by
          intro hc
          rcases List.mem_map.mp hc with ⟨p2, hp2, he⟩
          have := List.find?_eq_none.mp hfe p2 hp2
          simp [he] at this
        rw [nodeSet, if_neg hf, nodeWF_iff]
        refine ⟨h1, h2, ?_, ?_⟩
        · rw [List.map_append]
          refine List.nodup_append.mpr ⟨h3, by simp, ?_⟩
          intro a ha hb
          have : a = c := by simpa using hb
          exact hnotin (this ▸ ha)
        · intro pr hpr
          rcases List.mem_append.mp hpr with h | h
          · exact h4 pr h
          · have he : pr = (c, nodeSet (.mk none none []) cs2 (p ++ c :: cs2) v) := by
              simpa using h
            rw [he]
            have := ih (p ++ [c]) (.mk none none []) (nodeWF_empty _)
            simpa using this

theorem get_eq_bind {α} (t : Trie α) (w : Word) :
    t.get w = (nodeGet t.root w).bind TrieNode.value := by
  rw [Trie.get]
  cases nodeGet t.root w <;> rfl

/-- `trie[w] = v; trie[w]` returns `v`: the get/set law of `__setitem__` and
`__getitem__`. -/
theorem get_set_self {α} (t : Trie α) (w : Word) (v : α) :
    (t.set w v).get w = some v := by
  rcases nodeSet_walk w v w t.root with ⟨m, hget, hw, hv⟩
  rw [Trie.set, get_eq_bind]
  dsimp only
  rw [hget]
  simpa using hv

theorem get_set_other {α} (t : Trie α) (w w' : Word) (v : α) (hne : w' ≠ w) :
    (t.set w v).get w' = t.get w' := by
  rw [Trie.set, get_eq_bind, get_eq_bind]
  dsimp only
  exact (nodeSet_other w v w w' t.root hne).2

theorem terminalAt_set_self {α} (t : Trie α) (w : Word) (v : α) :
    TerminalAt (t.set w v) w := by
  rcases nodeSet_walk w v w t.root with ⟨m, hget, hw, _⟩
  rw [TerminalAt, wordAt, Trie.set]
  dsimp only
  rw [hget]
  simpa using hw

theorem terminalAt_set_other {α} (t : Trie α) (w w' : Word) (v : α) (hne : w' ≠ w) :
    (TerminalAt (t.set w v) w' ↔ TerminalAt t w') := by
  rw [TerminalAt, TerminalAt, wordAt, wordAt, Trie.set]
  dsimp only
  rw [(nodeSet_other w v w w' t.root hne).1]

/-- The word list after `__setitem__` of an already terminal word: unchanged
(no duplicate entry on overwrite). -/
theorem words_set_terminal {α} (t : Trie α) (w : Word) (v : α) (h : TerminalAt t w) :
    (t.set w v).words = t.words := by
  rw [Trie.set]
  dsimp only
  rw [if_pos (show wordAt t.root w = some w from h)]

/-- The word list after `__setitem__` of a new word: appended at the end. -/
theorem words_set_new {α} (t : Trie α) (w : Word) (v : α) (h : ¬ TerminalAt t w) :
    (t.set w v).words = t.words ++ [w] := by
  rw [Trie.set]
  dsimp only
  rw [if_neg (show ¬ wordAt t.root w = some w from h)]

theorem trieInv_empty {α} : TrieInv (α := α) Trie.empty := by
  refine ⟨nodeWF_empty [], ?_, by simp [Trie.empty]⟩
  intro w
  simp only [Trie.empty, List.not_mem_nil, false_iff]
  rw [TerminalAt, wordAt]
  cases w with
  | nil => simp [nodeGet, TrieNode.word, Option.bind]
  | cons c r =>
    rw [nodeGet]
    have : findChild (α := α) [] c = none := rfl
    rw [TrieNode.children, this]
    simp

/-- `__setitem__` preserves the trie invariant. -/
theorem trieInv_set {α} (t : Trie α) (w : Word) (v : α) (h : TrieInv t) :
    TrieInv (t.set w v) := by
  obtain ⟨hWF, hmem, hnd⟩ := h
  refine ⟨?_, ?_, ?_⟩
  · rw [Trie.set]
    have := nodeSet_WF v w [] t.root hWF
    simpa using this
  · intro w2
    by_cases he : w2 = w
    · subst he
      by_cases hterm : TerminalAt t w2
      · rw [words_set_terminal t w2 v hterm]
        simp [hmem w2, hterm, terminalAt_set_self]
      · rw [words_set_new t w2 v hterm]
        simp [terminalAt_set_self]
    · rw [terminalAt_set_other t w w2 v he]
      by_cases hterm : TerminalAt t w
      · rw [words_set_terminal t w v hterm]
        exact hmem w2
      · rw [words_set_new t w v hterm]
        rw [List.mem_append]
        simp only [List.mem_singleton]
        constructor
        · rintro (h2 | h2)
          · exact (hmem w2).mp h2
          · exact absurd h2 he
        · intro h2
          exact Or.inl ((hmem w2).mpr h2)
  · by_cases hterm : TerminalAt t w
    · rw [words_set_terminal t w v hterm]
      exact hnd
    · rw [words_set_new t w v hterm]
      refine List.nodup_append.mpr ⟨hnd, by simp, ?_⟩
      intro a ha hb
      have : a = w := by simpa using hb
      subst this
      exact hterm ((hmem a).mp ha)

theorem trieInv_foldl {α} :
    ∀ (ops : List (Word × α)) (t : Trie α), TrieInv t →
      TrieInv (ops.foldl (fun t2 p => t2.set p.1 p.2) t) := by
  intro ops
  induction ops with
  | nil => intro t h; exact h
  | cons p rest ih =>
    intro t h
    rw [List.foldl_cons]
    exact ih (t.set p.1 p.2) (trieInv_set t p.1 p.2 h)

theorem trieInv_buildTrie {α} (ops : List (Word × α)) : TrieInv (buildTrie ops) :=
  trieInv_foldl ops Trie.empty trieInv_empty

theorem terminal_foldl_iff {α} :
    ∀ (ops : List (Word × α)) (t : Trie α) (w : Word),
      (TerminalAt (ops.foldl (fun t2 p => t2.set p.1 p.2) t) w ↔
        (w ∈ ops.map Prod.fst ∨ TerminalAt t w)) := by
  intro ops
  induction ops with
  | nil =>
    intro t w
    simp
  | cons p rest ih =>
    intro t w
    rw [List.foldl_cons, ih]
    by_cases he : w = p.1
    · subst he
      refine iff_of_true (Or.inr (terminalAt_set_self t p.1 p.2)) (Or.inl ?_)
      rw [List.map_cons]
      exact List.mem_cons_self _ _
    · rw [terminalAt_set_other t p.1 w p.2 he]
      rw [List.map_cons]
      simp only [List.mem_cons]
      constructor
      · rintro (h2 | h2)
        · exact Or.inl (Or.inr h2)
        · exact Or.inr h2
      · rintro ((h2 | h2) | h2)
        · exact absurd h2 he
        · exact Or.inl h2
        · exact Or.inr h2

theorem terminal_buildTrie_iff {α} (ops : List (Word × α)) (w : Word) :
    TerminalAt (buildTrie ops) w ↔ w ∈ ops.map Prod.fst := by
  rw [buildTrie, terminal_foldl_iff]
  have h2 : ¬ TerminalAt (α := α) Trie.empty w := by
    intro hc
    exact absurd ((trieInv_empty.2.1 w).mpr hc) (by simp [Trie.empty])
  exact or_iff_left h2

/-! ### Trie claims -/
/-- Claim C1, counterexample: the claim quantifies over every trie state, but
when the empty string has been stored (`trie[""] = 0`), it is a stored word at
edit distance 0 from the empty query, yet `search_correction("", 0)` does not
return it — both searches start at the root's children and never examine the
root's own terminal marker. -/
theorem claim_C1_counterexample :
    ([] : Word) ∈ (Trie.empty.set ([] : Word) (0 : ℕ)).words ∧
    lev [] [] = 0 ∧
    (([] : Word), 0) ∉ (Trie.empty.set ([] : Word) (0 : ℕ)).search_correction [] 0 := by
  have hinv : TrieInv (Trie.empty.set ([] : Word) (0 : ℕ)) :=
    trieInv_set Trie.empty [] 0 trieInv_empty
  refine ⟨?_, by rw [lev_nil_left]; rfl, ?_⟩
  · exact (hinv.2.1 []).mpr (terminalAt_set_self Trie.empty [] 0)
  · intro hc
    exact absurd ((mem_search_correction hinv.1 [] 0 [] 0).mp hc).2.1 (by simp)

/-- Claim C1 (amended): for every trie state reachable through `__setitem__`,
`search_correction(query, maxCost)` returns exactly the stored NON-EMPTY words
whose unit-cost edit distance to the query is at most `maxCost`, each paired
with that edit distance; no non-stored word and no word at greater distance
appears.  (The amendment excludes the stored empty word, which the traversal
never reports.) -/
theorem claim_C1_amended {α} (t : Trie α) (h : TrieInv t) (q : Word) (k : ℕ)
    (w : Word) (d : ℕ) :
    (w, d) ∈ t.search_correction q k ↔
      (w ∈ t.words ∧ w ≠ [] ∧ d = lev q w ∧ d ≤ k) := by
  rw [mem_search_correction h.1, h.2.1 w]

/-- Witness for C1 (amended) at a concrete trie: the word "ab" is returned for
query "b" at cost 1 with maxCost 2. -/
theorem claim_C1_amended_witness :
    (['a', 'b'], 1) ∈
      (buildTrie [((['a', 'b'] : Word), (0 : ℕ))]).search_correction ['b'] 2 := by
  refine (claim_C1_amended _ (trieInv_buildTrie _) ['b'] 2 ['a', 'b'] 1).mpr
    ⟨?_, by simp, ?_, by omega⟩
  · exact ((trieInv_buildTrie _).2.1 _).mpr
      ((terminal_buildTrie_iff _ _).mpr (by simp))
  · have h1 : lev ['b'] ['b'] = 0 := by
      rw [lev_cons_cons, lev_nil_left, lev_cons_nil, lev_nil_left]
      rw [show delta 'b' 'b' = 0 from by simp [delta]]
      rfl
    rw [lev_cons_cons, h1, lev_nil_left, lev_nil_left]
    rw [show delta 'b' 'a' = 1 from by simp [delta]]
    rfl

/-- Claim C2: `search_prediction(query, maxCost)` returns exactly the stored
words having some non-empty prefix (a visited trie node, possibly the word
itself) whose DP-row cost against the full query — the edit distance between
the query and that prefix — is at most `maxCost`; the reported cost is the
prefix cost, and when several prefixes match it is the minimum of their
costs. -/
theorem claim_C2_search_prediction {α} (t : Trie α) (h : TrieInv t) (q : Word)
    (k : ℕ) (w : Word) (d : ℕ) :
    (w, d) ∈ t.search_prediction q k ↔
      (w ∈ t.words ∧
        (∃ r, r ≠ [] ∧ r <+: w ∧ lev q r ≤ k ∧ lev q r = d) ∧
        ∀ r, r ≠ [] → r <+: w → lev q r ≤ k → d ≤ lev q r) := by
  rw [mem_search_prediction h.1, h.2.1 w]

/-- Witness for C2 at a concrete trie: for the stored word "ab" and query "a",
the prefix "a" matches at cost 0, so ("ab", 0) is predicted. -/
theorem claim_C2_witness :
    (['a', 'b'], 0) ∈
      (buildTrie [((['a', 'b'] : Word), (0 : ℕ))]).search_prediction ['a'] 0 := by
  have hlev : lev ['a'] ['a'] = 0 := by
    rw [lev_cons_cons, lev_nil_left, lev_cons_nil, lev_nil_left]
    rw [show delta 'a' 'a' = 0 from by simp [delta]]
    rfl
  refine (claim_C2_search_prediction _ (trieInv_buildTrie _) ['a'] 0 ['a', 'b'] 0).mpr
    ⟨?_, ⟨['a'], by simp, ⟨['b'], rfl⟩, by omega, hlev⟩, fun r _ _ _ => Nat.zero_le _⟩
  exact ((trieInv_buildTrie _).2.1 _).mpr
    ((terminal_buildTrie_iff _ _).mpr (by simp))

/-- Claim C3: under every sequence of `__setitem__` operations, the word
sequence and the set of terminal nodes remain in bijection; after `set(w, v)`,
`get(w)` returns `v`; and `w` occurs exactly once in the word sequence no
matter how many times it was re-inserted (re-insertion overwrites the value
but appends nothing). -/
theorem count_nodup_mem {l : List Word} (hnd : l.Nodup) (w : Word) :
    l.count w = if w ∈ l then 1 else 0 := by
  induction l with
  | nil => simp
  | cons b t ih =>
    have hnd2 := (List.nodup_cons.mp hnd).2
    have hb := (List.nodup_cons.mp hnd).1
    rw [List.count_cons]
    by_cases he : b = w
    · subst he
      simp [ih hnd2, hb]
    · have : ¬ w = b := fun h => he h.symm
      simp [ih hnd2, he, this]

theorem claim_C3_set_get_bijection {α} (ops : List (Word × α)) (w : Word) (v : α) :
    ((buildTrie ops).set w v).get w = some v ∧
    (∀ w2, w2 ∈ (buildTrie ops).words ↔ TerminalAt (buildTrie ops) w2) ∧
    (buildTrie ops).words.Nodup ∧
    (buildTrie ops).words.count w = (if w ∈ ops.map Prod.fst then 1 else 0) := by
  have hinv := trieInv_buildTrie ops
  refine ⟨get_set_self _ w v, hinv.2.1, hinv.2.2, ?_⟩
  rw [count_nodup_mem hinv.2.2]
  by_cases hmem : w ∈ ops.map Prod.fst
  · rw [if_pos hmem,
      if_pos ((hinv.2.1 w).mpr ((terminal_buildTrie_iff ops w).mpr hmem))]
  · rw [if_neg hmem,
      if_neg (fun hc => hmem ((terminal_buildTrie_iff ops w).mp ((hinv.2.1 w).mp hc)))]

/-- Claim C10: neither search ever returns the empty string as a matched word,
for any trie state (reachable through `__setitem__`), query and `maxCost` —
even when the empty string is stored — because both traversals start at the
root's children and never examine the root node's own terminal marker. -/
theorem claim_C10_no_empty_word {α} (t : Trie α) (h : TrieInv t) (q : Word)
    (k d : ℕ) :
    (([] : Word), d) ∉ t.search_correction q k ∧
    (([] : Word), d) ∉ t.search_prediction q k := by
  constructor
  · intro hc
    exact absurd ((mem_search_correction h.1 q k [] d).mp hc).2.1 (by simp)
  · intro hc
    rcases ((mem_search_prediction h.1 q k [] d).mp hc).2.1 with ⟨r, hne, hpre, _, _⟩
    rcases hpre with ⟨s, hs⟩
    exact hne (by simpa using (List.append_eq_nil.mp hs).1)

/-- Witness for C10 at a trie where the empty string IS stored and within
`maxCost` (distance 0 to the empty query): it is still never returned. -/
theorem claim_C10_witness :
    (([] : Word), 0) ∉ (Trie.empty.set ([] : Word) (7 : ℕ)).search_correction [] 0 ∧
    (([] : Word), 0) ∉ (Trie.empty.set ([] : Word) (7 : ℕ)).search_prediction [] 0 :=
  claim_C10_no_empty_word (Trie.empty.set ([] : Word) (7 : ℕ))
    (trieInv_set Trie.empty [] 7 trieInv_empty) [] 0 0

/-- A word stored with a value has a language-model probability. -/
theorem get_of_terminalAt {α} {t : Trie α} (hWF : NodeWF t.root []) {w : Word}
    (ht : TerminalAt t w) : ∃ e, t.get w = some e := by
  rw [TerminalAt, wordAt] at ht
  rcases Option.bind_eq_some.mp ht with ⟨n, hget, hword⟩
  have hWFn := nodeWF_nodeGet w t.root n [] hWF hget
  cases n with
  | mk w0 v0 ch =>
    have hiff := ((nodeWF_iff w0 v0 ch ([] ++ w)).mp (by simpa using hWFn)).2.1
    rw [TrieNode.word] at hword
    rw [hword] at hiff
    rcases Option.isSome_iff_exists.mp (by rw [← hiff]; rfl) with ⟨e, he⟩
    refine ⟨e, ?_⟩
    rw [get_eq_bind, hget]
    simpa [TrieNode.value] using he

theorem ngram_some_of_terminal (kb : VKeyboard) (hWF : NodeWF kb.words.root [])
    {w : Word} (ht : TerminalAt kb.words w) (prev : Word) :
    ∃ p, get_ngram_probability kb w prev = some p := by
  obtain ⟨e, he⟩ := get_of_terminalAt hWF ht
  have hs : (get_ngram_probability kb w prev).isSome = true := by
    simp [get_ngram_probability, he]
  exact Option.isSome_iff_exists.mp hs

theorem mapM_eq_map {β γ : Type} (f : β → Option γ) (g : β → γ) (l : List β)
    (h : ∀ x ∈ l, f x = some (g x)) : l.mapM f = some (l.map g) := by
  induction l with
  | nil => rfl
  | cons x t ih =>
    rw [List.mapM_cons, h x (by simp), ih (fun y hy => h y (List.mem_cons_of_mem x hy))]
    rfl

/-- Closed form of `candidate_corrections` on a well-formed vocabulary. -/
theorem candidate_corrections_eq (kb : VKeyboard) (h : TrieInv kb.words)
    (prev q : Word) :
    candidate_corrections kb prev q =
      some (sortByScoreDesc ((kb.words.search_correction q 2).map
        (fun wd => (wd.1, (0.001 : ℝ) ^ wd.2 * ngramD kb wd.1 prev)))) := by
  rw [candidate_corrections,
    mapM_eq_map _ (fun wd => (wd.1, (0.001 : ℝ) ^ wd.2 * ngramD kb wd.1 prev)) _ ?_]
  · rfl
  · rintro ⟨w, d⟩ hmem
    have hterm : TerminalAt kb.words w :=
      ((mem_search_correction h.1 q 2 w d).mp hmem).1
    obtain ⟨p, hp⟩ := ngram_some_of_terminal kb h.1 hterm prev
    rw [hp]
    simp [ngramD, hp]

/-- Closed form of `candidate_predictions` on a well-formed vocabulary. -/
theorem candidate_predictions_eq (kb : VKeyboard) (h : TrieInv kb.words)
    (prev q : Word) :
    candidate_predictions kb prev q =
      some (sortByScoreDesc ((kb.words.search_prediction q 2).map
        (fun wd => (wd.1, (0.001 : ℝ) ^ wd.2 * ngramD kb wd.1 prev)))) := by
  rw [candidate_predictions,
    mapM_eq_map _ (fun wd => (wd.1, (0.001 : ℝ) ^ wd.2 * ngramD kb wd.1 prev)) _ ?_]
  · rfl
  · rintro ⟨w, d⟩ hmem
    have hterm : TerminalAt kb.words w :=
      ((mem_search_prediction h.1 q 2 w d).mp hmem).1
    obtain ⟨p, hp⟩ := ngram_some_of_terminal kb h.1 hterm prev
    rw [hp]
    simp [ngramD, hp]

theorem sortByScoreDesc_sorted (l : List (Word × ℝ)) :
    List.Sorted (fun a b : Word × ℝ => b.2 ≤ a.2) (sortByScoreDesc l) := by
  haveI : IsTotal (Word × ℝ) (fun a b => b.2 ≤ a.2) := ⟨fun a b => le_total b.2 a.2⟩
  haveI : IsTrans (Word × ℝ) (fun a b => b.2 ≤ a.2) :=
    ⟨fun _ _ _ hab hbc => le_trans hbc hab⟩
  exact List.sorted_insertionSort _ l

theorem sortByScoreDesc_perm (l : List (Word × ℝ)) :
    List.Perm (sortByScoreDesc l) l :=
  List.perm_insertionSort _ l

/-- Claim C5: the language-model probability of `word` given `prev` is exactly
`0.4 * (bigram_count(prev, word) + 1) / (unigram_count(prev) + distinct_session_unigrams)
+ 0.1 * (unigram_count(word) + 1) / (total_committed_count + distinct_session_unigrams)
+ 0.5 * static_frequency`, where the counts are the session dicts, the
distinct-unigram number is the unigram dict size, the total committed count is
`user_nograms`, and the static frequency is the third component of the word's
stored trie value. -/
theorem claim_C5_ngram_formula (kb : VKeyboard) (word prev_word : Word)
    (e : Entry) (h : kb.words.get word = some e) :
    get_ngram_probability kb word prev_word =
      some (0.4 * ((dictGet kb.user_bigrams (prev_word, word) : ℝ) + 1) /
          ((dictGet kb.user_unigrams prev_word : ℝ) + dictLen kb.user_unigrams) +
        0.1 * ((dictGet kb.user_unigrams word : ℝ) + 1) /
          ((kb.user_nograms : ℝ) + dictLen kb.user_unigrams) +
        0.5 * e.2.2) := by
  simp [get_ngram_probability, h]

/-- Witness for C5 at the concrete keyboard `kbEx` and its stored word "a". -/
theorem claim_C5_witness :
    get_ngram_probability kbEx ['a'] [] =
      some (0.4 * ((dictGet kbEx.user_bigrams ([], ['a']) : ℝ) + 1) /
          ((dictGet kbEx.user_unigrams [] : ℝ) + dictLen kbEx.user_unigrams) +
        0.1 * ((dictGet kbEx.user_unigrams ['a'] : ℝ) + 1) /
          ((kbEx.user_nograms : ℝ) + dictLen kbEx.user_unigrams) +
        0.5 * entryA.2.2) :=
  claim_C5_ngram_formula kbEx ['a'] [] entryA
    (get_set_self Trie.empty ['a'] entryA)

/-- Claim C6: both typed-correction and typed-prediction candidate generation
call the trie search with fixed maximum edit cost 2, give each returned word
the score `0.001 ^ cost * p(word | previous word)`, and return the list sorted
in descending score order. -/
theorem claim_C6_scoring (kb : VKeyboard) (h : TrieInv kb.words) (prev q : Word) :
    (∃ l, candidate_corrections kb prev q = some l ∧
      List.Sorted (fun a b : Word × ℝ => b.2 ≤ a.2) l ∧
      List.Perm l ((kb.words.search_correction q 2).map
        (fun wd => (wd.1, (0.001 : ℝ) ^ wd.2 * ngramD kb wd.1 prev)))) ∧
    (∃ l, candidate_predictions kb prev q = some l ∧
      List.Sorted (fun a b : Word × ℝ => b.2 ≤ a.2) l ∧
      List.Perm l ((kb.words.search_prediction q 2).map
        (fun wd => (wd.1, (0.001 : ℝ) ^ wd.2 * ngramD kb wd.1 prev)))) := by
  constructor
  · exact ⟨_, candidate_corrections_eq kb h prev q, sortByScoreDesc_sorted _,
      sortByScoreDesc_perm _⟩
  · exact ⟨_, candidate_predictions_eq kb h prev q, sortByScoreDesc_sorted _,
      sortByScoreDesc_perm _⟩

/-- Witness for C6 at the concrete keyboard `kbEx`. -/
theorem claim_C6_witness :
    ∃ l, candidate_corrections kbEx [] ['a'] = some l ∧
      List.Sorted (fun a b : Word × ℝ => b.2 ≤ a.2) l ∧
      List.Perm l ((kbEx.words.search_correction ['a'] 2).map
        (fun wd => (wd.1, (0.001 : ℝ) ^ wd.2 * ngramD kbEx wd.1 []))) :=
  (claim_C6_scoring kbEx (trieInv_buildTrie _) [] ['a']).1

/-- The word list of the example keyboard is the single word "a". -/
theorem kbEx_words : kbEx.words.words = [['a']] := by
  have hterm : ¬ TerminalAt (α := Entry) Trie.empty ['a'] := by
    intro hc
    simpa [Trie.empty] using (trieInv_empty.2.1 _).mpr hc
  rw [show kbEx.words = Trie.empty.set ['a'] entryA from rfl,
    words_set_new _ _ _ hterm]
  rfl

/-- Claim C8, counterexample: with the single stored word "a" and the initial
session state, an empty typed prefix does NOT give an empty candidate list
(edit distance of "a" from "" is 1 <= 2, so "a" is returned), and an empty
gesture makes `candidate_matches` fail on `gesture[0]` (modelled by `none`)
rather than return an empty list. -/
theorem claim_C8_counterexample :
    candidate_corrections kbEx [] [] ≠ some [] ∧
    candidate_matches kbEx [] [] = none := by
  have hinv : TrieInv kbEx.words := trieInv_buildTrie _
  constructor
  · rw [candidate_corrections_eq kbEx hinv [] []]
    intro hc
    have hnil := Option.some.inj hc
    have hperm := sortByScoreDesc_perm ((kbEx.words.search_correction [] 2).map
      (fun wd => (wd.1, (0.001 : ℝ) ^ wd.2 * ngramD kbEx wd.1 [])))
    rw [hnil] at hperm
    have hmap := (List.Perm.nil_eq hperm).symm
    have hsearch : kbEx.words.search_correction [] 2 = [] := by
      simpa using hmap
    have hmem : ((['a'] : Word), 1) ∈ kbEx.words.search_correction [] 2 := by
      refine (mem_search_correction hinv.1 [] 2 ['a'] 1).mpr
        ⟨?_, by simp, by rw [lev_nil_left]; rfl, by omega⟩
      exact (terminal_buildTrie_iff _ _).mpr (by simp)
    rw [hsearch] at hmem
    cases hmem
  · have hget : kbEx.words.get ['a'] = some entryA :=
      get_set_self Trie.empty ['a'] entryA
    rw [candidate_matches, kbEx_words, matchLoop, hget]
    rfl

/-- Claim C8 (amended): with an empty vocabulary, empty inputs do return empty
candidate lists without error; but with a non-empty vocabulary an empty
gesture fails the `gesture[0]` access, and an empty typed prefix returns
exactly the stored non-empty words of length at most 2 (their edit distance to
the empty prefix being their length), not an empty list. -/
theorem claim_C8_amended :
    (∀ (kb : VKeyboard) (prev : Word) (g : List Point),
      TrieInv kb.words → kb.words.words = [] →
      (candidate_matches kb prev g = some [] ∧
        candidate_corrections kb prev [] = some [] ∧
        candidate_predictions kb prev [] = some [])) ∧
    (∀ (kb : VKeyboard) (prev : Word) (w : Word) (ws : List Word),
      kb.words.words = w :: ws → candidate_matches kb prev [] = none) ∧
    (∀ (kb : VKeyboard) (prev : Word), TrieInv kb.words →
      ∃ l, candidate_corrections kb prev [] = some l ∧
        ∀ w, ((∃ s, (w, s) ∈ l) ↔
          (w ∈ kb.words.words ∧ w ≠ [] ∧ w.length ≤ 2))) := by
  refine ⟨?_, ?_, ?_⟩
  · intro kb prev g hinv hww
    have hempty : ∀ (q : Word) (k : ℕ), kb.words.search_correction q k = [] := by
      intro q k
      rw [List.eq_nil_iff_forall_not_mem]
      rintro ⟨w, d⟩ hc
      have := ((mem_search_correction hinv.1 q k w d).mp hc).1
      have hmem := (hinv.2.1 w).mpr this
      rw [hww] at hmem
      cases hmem
    have hempty2 : ∀ (q : Word) (k : ℕ), kb.words.search_prediction q k = [] := by
      intro q k
      rw [List.eq_nil_iff_forall_not_mem]
      rintro ⟨w, d⟩ hc
      have := ((mem_search_prediction hinv.1 q k w d).mp hc).1
      have hmem := (hinv.2.1 w).mpr this
      rw [hww] at hmem
      cases hmem
    refine ⟨?_, ?_, ?_⟩
    · rw [candidate_matches, hww, matchLoop]
      rfl
    · rw [candidate_corrections_eq kb hinv prev [], hempty]
      rfl
    · rw [candidate_predictions_eq kb hinv prev [], hempty2]
      rfl
  · intro kb prev w ws hww
    rw [candidate_matches, hww, matchLoop]
    cases hget : kb.words.get w with
    | none => rfl
    | some e =>
      rcases e with ⟨path, plen, freq⟩
      cases path with
      | nil => rfl
      | cons p ps => rfl
  · intro kb prev hinv
    refine ⟨_, candidate_corrections_eq kb hinv prev [], ?_⟩
    intro w
    constructor
    · rintro ⟨s, hs⟩
      have hmem := (sortByScoreDesc_perm _).mem_iff.mp hs
      rcases List.mem_map.mp hmem with ⟨⟨w2, d⟩, hwd, he⟩
      have hw2 : w2 = w := congrArg Prod.fst he
      rw [hw2] at hwd
      obtain ⟨hmemw, hne, hd, hk⟩ := (mem_search_correction hinv.1 [] 2 w d).mp hwd
      rw [lev_nil_left] at hd
      exact ⟨(hinv.2.1 w).mpr hmemw, hne, by omega⟩
    · rintro ⟨hmemw, hne, hlen⟩
      have hwd : ((w : Word), w.length) ∈ kb.words.search_correction [] 2 := by
        refine (mem_search_correction hinv.1 [] 2 w w.length).mpr
          ⟨(hinv.2.1 w).mp hmemw, hne, by rw [lev_nil_left], by omega⟩
      refine ⟨(0.001 : ℝ) ^ w.length * ngramD kb w prev, ?_⟩
      refine (sortByScoreDesc_perm _).mem_iff.mpr ?_
      exact List.mem_map.mpr ⟨(w, w.length), hwd, rfl⟩

/-- Witness for C8 (amended) at a concrete empty-vocabulary keyboard, a
concrete one-word keyboard with an empty gesture, and the one-word keyboard
with an empty prefix. -/
theorem claim_C8_amended_witness :
    (candidate_matches { kbEx with words := Trie.empty } [] [] = some [] ∧
      candidate_corrections { kbEx with words := Trie.empty } [] [] = some [] ∧
      candidate_predictions { kbEx with words := Trie.empty } [] [] = some []) ∧
    candidate_matches kbEx [] [] = none ∧
    (∃ l, candidate_corrections kbEx [] [] = some l ∧
      ∀ w, ((∃ s, (w, s) ∈ l) ↔
        (w ∈ kbEx.words.words ∧ w ≠ [] ∧ w.length ≤ 2))) :=
  ⟨claim_C8_amended.1 _ [] [] trieInv_empty rfl,
    claim_C8_amended.2.1 kbEx [] ['a'] [] kbEx_words,
    claim_C8_amended.2.2 kbEx [] (trieInv_buildTrie _)⟩

/-- Claim C4, counterexample: for a gesture of length 1.3 and a word of stored
path length 1 (first/last points well within one key width), the claim's
condition (2) discards the word (1 lies outside [0.8 * 1.3, 1.4 * 1.3] =
[1.04, 1.82]) but the code keeps it (1.3 lies inside [0.8 * 1, 1.4 * 1]):
the code compares the GESTURE's length against the word's, not the word's
against the gesture's. -/
theorem claim_C4_counterexample :
    pathLength [((0 : ℝ), (0 : ℝ)), ((13 / 10 : ℝ), (0 : ℝ))] = 13 / 10 ∧
    claimDiscardC4 10 10 (13 / 10) ((0 : ℝ), (0 : ℝ)) ((13 / 10 : ℝ), (0 : ℝ))
      ((0 : ℝ), (0 : ℝ)) ((1 : ℝ), (0 : ℝ)) 1 ∧
    ¬ matchDiscard 10 10 (13 / 10) ((0 : ℝ), (0 : ℝ)) ((13 / 10 : ℝ), (0 : ℝ))
      ((0 : ℝ), (0 : ℝ)) ((1 : ℝ), (0 : ℝ)) 1 := by
  refine ⟨?_, ?_, ?_⟩
  · rw [pathLength]
    simp only [List.tail_cons, List.zip_cons_cons, List.zip_nil_right, List.map_cons,
      List.map_nil, List.sum_cons, List.sum_nil, add_zero]
    rw [segLen]
    rw [show ((13 / 10 : ℝ) - 0) ^ 2 + ((0 : ℝ) - 0) ^ 2 = (13 / 10 : ℝ) ^ 2 by ring]
    exact Real.sqrt_sq (by norm_num)
  · refine Or.inr ?_
    rintro ⟨h1, _⟩
    norm_num at h1
  · rw [matchDiscard]
    push_neg
    norm_num [abs_le]

/-- Claim C4 (amended): the pre-filter discards exactly the words for which
(1) the first or last key-center point deviates from the gesture's first or
last point by more than one key width in x or one key height in y, or (2) the
GESTURE's path length lies outside `[0.8, 1.4]` times the word's stored path
length; and consequently a (non-empty) gesture whose first point is farther
than one key width (in x) from every stored word's first path point yields an
empty candidate list. -/
theorem claim_C4_amended :
    (∀ (kw kh gl : ℝ) (g0 gN p0 pN : Point) (plen : ℝ),
      matchDiscard kw kh gl g0 gN p0 pN plen ↔
        ((|p0.1 - g0.1| > kw ∨ |p0.2 - g0.2| > kh ∨
          |pN.1 - gN.1| > kw ∨ |pN.2 - gN.2| > kh) ∨
          ¬ (0.8 * plen ≤ gl ∧ gl ≤ 1.4 * plen))) ∧
    (∀ (kb : VKeyboard) (prev : Word) (g : List Point) (g0 : Point),
      g.head? = some g0 →
      (∀ w ∈ kb.words.words, ∃ e, kb.words.get w = some e ∧
        ∃ p0, e.1.head? = some p0 ∧ |p0.1 - g0.1| > kb.key_width) →
      candidate_matches kb prev g = some []) := by
  constructor
  · intro kw kh gl g0 gN p0 pN plen
    rw [matchDiscard]
    tauto
  · intro kb prev g g0 hg hfar
    obtain ⟨rs, rfl⟩ : ∃ rs, g = g0 :: rs := by
      cases g with
      | nil => cases hg
      | cons a l =>
        rw [List.head?_cons] at hg
        exact ⟨l, by rw [Option.some_inj.mp hg]⟩
    obtain ⟨gN, hgN⟩ : ∃ gN, (g0 :: rs).getLast? = some gN :=
      Option.isSome_iff_exists.mp (List.getLast?_isSome.mpr (List.cons_ne_nil _ _))
    have hloop : ∀ ws, (∀ w ∈ ws, ∃ e, kb.words.get w = some e ∧
        ∃ p0, e.1.head? = some p0 ∧ |p0.1 - g0.1| > kb.key_width) →
        matchLoop kb prev (g0 :: rs) (pathLength (g0 :: rs)) ws = some [] := by
      intro ws
      induction ws with
      | nil =>
        intro _
        rw [matchLoop]
      | cons w ws2 ih =>
        intro h
        obtain ⟨e, hget, p0, hp0, hfarw⟩ := h w (List.mem_cons_self _ _)
        rcases e with ⟨path, plen, freq⟩
        rcases path with _ | ⟨q, qs⟩
        · cases hp0
        rw [List.head?_cons] at hp0
        obtain rfl : q = p0 := Option.some_inj.mp hp0
        obtain ⟨pN, hpN⟩ : ∃ pN, (q :: qs).getLast? = some pN :=
          Option.isSome_iff_exists.mp (List.getLast?_isSome.mpr (List.cons_ne_nil _ _))
        have hd : matchDiscard kb.key_width kb.key_height (pathLength (g0 :: rs))
            g0 gN q pN plen := Or.inl (Or.inl hfarw)
        simp only [matchLoop, hget, List.head?_cons, hpN, hgN]
        rw [if_pos hd]
        exact ih (fun w2 hw2 => h w2 (List.mem_cons_of_mem w hw2))
    rw [candidate_matches, hloop kb.words.words hfar]
    rfl

/-- Witness for C4 (amended), second part, at the concrete keyboard `kbEx`
and a one-point gesture 20 units to the right of the only word's path. -/
theorem claim_C4_amended_witness :
    candidate_matches kbEx [] [((20 : ℝ), (0 : ℝ))] = some [] := by
  refine claim_C4_amended.2 kbEx [] [((20 : ℝ), (0 : ℝ))] ((20 : ℝ), (0 : ℝ)) rfl ?_
  intro w hw
  rw [kbEx_words] at hw
  have hw2 : w = ['a'] := by simpa using hw
  subst hw2
  refine ⟨entryA, get_set_self Trie.empty ['a'] entryA, ((0 : ℝ), (0 : ℝ)), rfl, ?_⟩
  show |(0 : ℝ) - 20| > kbEx.key_width
  rw [show kbEx.key_width = 10 from rfl]
  rw [show ((0 : ℝ) - 20) = -20 by ring, abs_neg]
  rw [abs_of_nonneg (by norm_num : (0 : ℝ) ≤ 20)]
  norm_num

/-! ### Arc-length resampling (C7) -/
theorem map_sum_nonneg {α : Type} (g : α → ℝ) (h0 : ∀ a, 0 ≤ g a) (l : List α) :
    0 ≤ (l.map g).sum := by
  induction l with
  | nil => simp
  | cons b l ih =>
    rw [List.map_cons, List.sum_cons]
    have := h0 b
    linarith

theorem map_sum_zero {α : Type} (g : α → ℝ) (h0 : ∀ a, 0 ≤ g a) (l : List α)
    (hs : (l.map g).sum = 0) : ∀ a ∈ l, g a = 0 := by
  induction l with
  | nil => intro a ha; cases ha
  | cons b l ih =>
    rw [List.map_cons, List.sum_cons] at hs
    have h1 := h0 b
    have h2 := map_sum_nonneg g h0 l
    have hb : g b = 0 := by linarith
    have hrest : (l.map g).sum = 0 := by linarith
    intro a ha
    rcases List.mem_cons.mp ha with rfl | ha2
    · exact hb
    · exact ih hrest a ha2

theorem scanl_seg_zero (l : List (Point × Point)) (acc : ℝ)
    (h : ∀ pr ∈ l, segLen pr.1 pr.2 = 0) (hacc : acc = 0) :
    ∀ x ∈ l.scanl (fun a pr => a + segLen pr.1 pr.2) acc, x = 0 := by
  induction l generalizing acc with
  | nil =>
    intro x hx
    rw [List.scanl_nil] at hx
    rcases List.mem_singleton.mp hx with rfl
    exact hacc
  | cons pr l ih =>
    intro x hx
    rw [List.scanl_cons] at hx
    rcases List.mem_append.mp hx with h1 | h2
    · rcases List.mem_singleton.mp h1 with rfl
      exact hacc
    · refine ih (acc + segLen pr.1 pr.2) (fun q hq => h q (List.mem_cons_of_mem pr hq)) ?_ x h2
      rw [hacc, h pr (List.mem_cons_self _ _), add_zero]

theorem segLen_nonneg (a b : Point) : 0 ≤ segLen a b := Real.sqrt_nonneg _

theorem cumLength_zero (path : List Point) (h : pathLength path = 0) :
    ∀ x ∈ cumLength path, x = 0 := by
  rw [pathLength] at h
  have h0 : ∀ q : Point × Point, 0 ≤ (fun q : Point × Point => segLen q.1 q.2) q :=
    fun q => segLen_nonneg q.1 q.2
  have hseg := map_sum_zero (fun q : Point × Point => segLen q.1 q.2) h0
    (path.zip path.tail) h
  intro x hx
  rw [cumLength] at hx
  exact scanl_seg_zero _ 0 hseg rfl x hx

theorem cumLength_ne_nil (path : List Point) : cumLength path ≠ [] := by
  rw [cumLength]
  cases path.zip path.tail with
  | nil => rw [List.scanl_nil]; simp
  | cons a l => rw [List.scanl_cons]; simp

theorem cumLength_length (path : List Point) (h : path ≠ []) :
    (cumLength path).length = path.length := by
  rw [cumLength, List.length_scanl, List.length_zip, List.length_tail]
  have h1 : 1 ≤ path.length := List.length_pos.mpr h
  omega

theorem pyIdx_of_nonneg {β : Type} (l : List β) (i : ℤ) (h : 0 ≤ i) :
    pyIdx l i = l.get? i.toNat := by
  rw [pyIdx, if_pos h]

theorem pyIdx_some_of_lt {β : Type} (l : List β) (i : ℤ) (h0 : 0 ≤ i)
    (h1 : i < (l.length : ℤ)) : ∃ y, pyIdx l i = some y := by
  rw [pyIdx_of_nonneg l i h0]
  have h2 : i.toNat < l.length := by omega
  exact ⟨l.get ⟨i.toNat, h2⟩, List.get?_eq_get h2⟩

theorem mem_of_getLast_eq {β : Type} (l : List β) (a : β) (h : l.getLast? = some a) :
    a ∈ l := by
  obtain ⟨hne, h2⟩ := List.mem_getLast?_eq_getLast (Option.mem_def.mpr h)
  rw [h2]
  exact List.getLast_mem hne

theorem samplePoint_eval (path : List Point) (cum : List ℝ) (n k : ℕ) (clast : ℝ)
    (hclast : cum.getLast? = some clast) (hne1 : ¬((n : ℤ) - 1 = 0)) (i : ℤ)
    (hi : i = (if (path.length : ℤ) - 1 ≤
        (bisect_left cum.tail (min ((k : ℝ) * clast / ((n : ℝ) - 1)) clast) : ℤ) then
        (bisect_left cum.tail (min ((k : ℝ) * clast / ((n : ℝ) - 1)) clast) : ℤ) - 1 else
        (bisect_left cum.tail (min ((k : ℝ) * clast / ((n : ℝ) - 1)) clast) : ℤ)))
    (c1 c0 : ℝ) (p0 p1 : Point)
    (h1 : pyIdx cum (i + 1) = some c1) (h0 : pyIdx cum i = some c0)
    (hp0 : pyIdx path i = some p0) (hp1 : pyIdx path (i + 1) = some p1) :
    samplePoint path cum n k = some
      (p0.1 + (if c1 = c0 then 0 else
          ((min ((k : ℝ) * clast / ((n : ℝ) - 1)) clast) - c0) / (c1 - c0)) * (p1.1 - p0.1),
       p0.2 + (if c1 = c0 then 0 else
          ((min ((k : ℝ) * clast / ((n : ℝ) - 1)) clast) - c0) / (c1 - c0)) * (p1.2 - p0.2)) := by
  simp only [samplePoint, hclast]
  rw [if_neg hne1]
  rw [← hi]
  rw [h1, h0, hp0, hp1]

theorem samplePoint_spec (path : List Point) (hpath : path ≠ []) (n k : ℕ) (hn : 2 ≤ n) :
    ∃ pt, samplePoint path (cumLength path) n k = some pt ∧
      ((∀ x ∈ cumLength path, x = 0) → pt = path.headI) := by
  obtain ⟨x, xs, rfl⟩ : ∃ a l2, path = a :: l2 := by
    cases path with
    | nil => exact absurd rfl hpath
    | cons a l2 => exact ⟨a, l2, rfl⟩
  have hne1 : ¬((n : ℤ) - 1 = 0) := by omega
  obtain ⟨clast, hclast⟩ : ∃ c, (cumLength (x :: xs)).getLast? = some c :=
    Option.isSome_iff_exists.mp (List.getLast?_isSome.mpr (cumLength_ne_nil _))
  have hlen : (cumLength (x :: xs)).length = (x :: xs).length :=
    cumLength_length _ (List.cons_ne_nil _ _)
  set L := min ((k : ℝ) * clast / ((n : ℝ) - 1)) clast with hLdef
  set B := bisect_left (cumLength (x :: xs)).tail L with hBdef
  have hble : B ≤ (x :: xs).length - 1 := by
    have h1 : B ≤ (cumLength (x :: xs)).tail.length := List.countP_le_length _
    rwa [List.length_tail, hlen] at h1
  have hb0 : (∀ q ∈ cumLength (x :: xs), q = 0) → B = 0 := by
    intro hz
    rw [hBdef, bisect_left]
    refine List.countP_eq_zero.mpr ?_
    intro e he
    rw [decide_eq_true_iff]
    intro hlt
    have he0 : e = 0 := hz e (List.mem_of_mem_tail he)
    have hL0 : L ≤ 0 := by
      rw [hLdef, hz clast (mem_of_getLast_eq _ _ hclast)]
      exact min_le_right _ 0
    rw [he0] at hlt
    linarith
  cases xs with
  | nil =>
    have hc : cumLength [x] = [0] := rfl
    have hB : B = 0 := by
      have h2 : ([x] : List Point).length = 1 := rfl
      omega
    have hcond : (([x] : List Point).length : ℤ) - 1 ≤ (B : ℤ) := by
      rw [hB]
      norm_num
    have hi : (-1 : ℤ) = if (([x] : List Point).length : ℤ) - 1 ≤ (B : ℤ) then
        (B : ℤ) - 1 else (B : ℤ) := by
      rw [if_pos hcond, hB]
      norm_num
    have h1 : pyIdx (cumLength [x]) ((-1) + 1) = some 0 := by rw [hc]; rfl
    have h0 : pyIdx (cumLength [x]) (-1) = some 0 := by rw [hc]; rfl
    have hp0 : pyIdx [x] (-1) = some x := by rfl
    have hp1 : pyIdx [x] ((-1) + 1) = some x := by rfl
    refine ⟨_, samplePoint_eval [x] (cumLength [x]) n k clast hclast hne1 (-1) hi
      0 0 x x h1 h0 hp0 hp1, fun _ => ?_⟩
    rw [if_pos rfl]
    simp
  | cons y ys =>
    have hm : ((x :: y :: ys) : List Point).length = ys.length + 2 := by simp
    by_cases hcond : (((x :: y :: ys) : List Point).length : ℤ) - 1 ≤ (B : ℤ)
    · have hBeq : B = ys.length + 1 := by
        rw [hm] at hble hcond
        omega
      have hi : ((B : ℤ) - 1) = if (((x :: y :: ys) : List Point).length : ℤ) - 1 ≤ (B : ℤ)
          then (B : ℤ) - 1 else (B : ℤ) := (if_pos hcond).symm
      obtain ⟨c1, h1⟩ := pyIdx_some_of_lt (cumLength (x :: y :: ys)) ((B : ℤ) - 1 + 1)
        (by omega) (by rw [hlen, hm]; omega)
      obtain ⟨c0, h0⟩ := pyIdx_some_of_lt (cumLength (x :: y :: ys)) ((B : ℤ) - 1)
        (by omega) (by rw [hlen, hm]; omega)
      obtain ⟨p0, hp0⟩ := pyIdx_some_of_lt (x :: y :: ys) ((B : ℤ) - 1)
        (by omega) (by rw [hm]; omega)
      obtain ⟨p1, hp1⟩ := pyIdx_some_of_lt (x :: y :: ys) ((B : ℤ) - 1 + 1)
        (by omega) (by rw [hm]; omega)
      refine ⟨_, samplePoint_eval (x :: y :: ys) (cumLength (x :: y :: ys)) n k clast hclast
        hne1 ((B : ℤ) - 1) hi c1 c0 p0 p1 h1 h0 hp0 hp1, fun hz => ?_⟩
      exact absurd (hb0 hz) (by omega)
    · have hi : ((B : ℤ)) = if (((x :: y :: ys) : List Point).length : ℤ) - 1 ≤ (B : ℤ)
          then (B : ℤ) - 1 else (B : ℤ) := (if_neg hcond).symm
      have hblt : (B : ℤ) < ((x :: y :: ys) : List Point).length - 1 := by omega
      obtain ⟨c1, h1⟩ := pyIdx_some_of_lt (cumLength (x :: y :: ys)) ((B : ℤ) + 1)
        (by omega) (by rw [hlen]; omega)
      obtain ⟨c0, h0⟩ := pyIdx_some_of_lt (cumLength (x :: y :: ys)) ((B : ℤ))
        (by omega) (by rw [hlen]; omega)
      obtain ⟨p0, hp0⟩ := pyIdx_some_of_lt (x :: y :: ys) ((B : ℤ))
        (by omega) (by omega)
      obtain ⟨p1, hp1⟩ := pyIdx_some_of_lt (x :: y :: ys) ((B : ℤ) + 1)
        (by omega) (by omega)
      refine ⟨_, samplePoint_eval (x :: y :: ys) (cumLength (x :: y :: ys)) n k clast hclast
        hne1 ((B : ℤ)) hi c1 c0 p0 p1 h1 h0 hp0 hp1, fun hz => ?_⟩
      have hB := hb0 hz
      rw [hB] at h1 h0 hp0 hp1
      rw [pyIdx_of_nonneg _ _ (by norm_num)] at h1 h0 hp0 hp1
      have hc1 : c1 = 0 := hz c1 (List.get?_mem h1)
      have hc0 : c0 = 0 := hz c0 (List.get?_mem h0)
      have hp0x : p0 = x := (Option.some_inj.mp hp0).symm
      rw [hp0x, hc1, hc0, if_pos rfl]
      simp

theorem mapM_some_of_forall {β γ : Type} (f : β → Option γ) (l : List β)
    (h : ∀ x ∈ l, ∃ y, f x = some y) :
    ∃ l2, l.mapM f = some l2 ∧ l2.length = l.length := by
  induction l with
  | nil => exact ⟨[], rfl, rfl⟩
  | cons a l ih =>
    obtain ⟨y, hy⟩ := h a (List.mem_cons_self _ _)
    obtain ⟨l2, hl2, hlen⟩ := ih (fun x hx => h x (List.mem_cons_of_mem a hx))
    refine ⟨y :: l2, ?_, by simp [hlen]⟩
    rw [List.mapM_cons, hy, hl2]
    rfl

theorem mem_of_mapM {β γ : Type} (f : β → Option γ) (l : List β) (l2 : List γ)
    (hm : l.mapM f = some l2) : ∀ y ∈ l2, ∃ x ∈ l, f x = some y := by
  induction l generalizing l2 with
  | nil =>
    rw [List.mapM_nil] at hm
    obtain rfl : ([] : List γ) = l2 := Option.some_inj.mp hm
    intro y hy
    cases hy
  | cons a l ih =>
    rw [List.mapM_cons] at hm
    cases ha : f a with
    | none =>
      rw [ha] at hm
      simp at hm
    | some b =>
      rw [ha] at hm
      cases hl : l.mapM f with
      | none =>
        rw [hl] at hm
        simp at hm
      | some l3 =>
        rw [hl] at hm
        obtain rfl : b :: l3 = l2 := by simpa using hm
        intro y hy
        rcases List.mem_cons.mp hy with rfl | hy2
        · exact ⟨a, List.mem_cons_self _ _, ha⟩
        · obtain ⟨x, hx, hfx⟩ := ih l3 hl y hy2
          exact ⟨x, List.mem_cons_of_mem a hx, hfx⟩

theorem claim_C7_counterexample :
    word_sample_n [((0 : ℝ), (0 : ℝ))] 1 = none := by
  have hc : cumLength [((0 : ℝ), (0 : ℝ))] = [0] := rfl
  have hgl : ([(0 : ℝ)].getLast?) = some 0 := rfl
  have hs : samplePoint [((0 : ℝ), (0 : ℝ))] [(0 : ℝ)] 1 0 = none := by
    simp only [samplePoint, hgl]
    rw [if_pos (by norm_num)]
  simp only [word_sample_n, hc]
  rw [show List.range 1 = [0] from rfl, List.mapM_cons, hs]
  rfl

/-- Claim C7, counterexample: `word_sample_n` is not total: for `n = 1` the
division `k * cum_length[-1] / (n - 1)` divides by zero (modelled as `none`),
even on a valid single-point path. -/
theorem claim_C7_amended (path : List Point) (n : ℕ) (hpath : path ≠ []) (hn : 2 ≤ n) :
    ∃ pts, word_sample_n path n = some pts ∧ pts.length = n ∧
      (pathLength path = 0 → ∀ pt ∈ pts, pt = path.headI) := by
  have hall : ∀ k ∈ List.range n, ∃ pt, samplePoint path (cumLength path) n k = some pt := by
    intro k _
    obtain ⟨pt, h1, _⟩ := samplePoint_spec path hpath n k hn
    exact ⟨pt, h1⟩
  obtain ⟨pts, hpts, hlen⟩ := mapM_some_of_forall _ (List.range n) hall
  refine ⟨pts, ?_, by rw [hlen, List.length_range], ?_⟩
  · simp only [word_sample_n]
    exact hpts
  · intro hz pt hmem
    obtain ⟨k, _, hfk⟩ := mem_of_mapM _ _ _ hpts pt hmem
    obtain ⟨pt2, hpt2, hdeg⟩ := samplePoint_spec path hpath n k hn
    rw [hfk] at hpt2
    obtain rfl : pt = pt2 := Option.some_inj.mp hpt2
    exact hdeg (cumLength_zero path hz)

/-- Claim C7 (amended): for every non-empty path and every `n >= 2`,
`word_sample_n` returns exactly `n` points, and in the degenerate case of a
path of total length 0 every returned point equals the path\x27s first point.
For `n = 1` the claim fails (see the counterexample): the loop body divides by
`n - 1`. -/
theorem claim_C7_amended_witness :
    ∃ pts, word_sample_n [((0 : ℝ), (0 : ℝ))] 2 = some pts ∧ pts.length = 2 ∧
      (pathLength [((0 : ℝ), (0 : ℝ))] = 0 →
        ∀ pt ∈ pts, pt = ([((0 : ℝ), (0 : ℝ))] : List Point).headI) :=
  claim_C7_amended [((0 : ℝ), (0 : ℝ))] 2 (by simp) (by norm_num)

/-! ### The word-commit block (C9) -/
theorem dict_find_map_self {κ : Type} [DecidableEq κ] (d : List (κ × ℕ)) (k : κ) :
    (d.map (fun p => if p.1 = k then (k, p.2 + 1) else p)).find?
        (fun p => p.1 = k) =
      (d.find? (fun p => p.1 = k)).map (fun p => (k, p.2 + 1)) := by
  induction d with
  | nil => rfl
  | cons a d ih =>
    by_cases ha : a.1 = k
    · rw [List.map_cons, if_pos ha]
      rw [List.find?_cons_of_pos _ (by simp), List.find?_cons_of_pos _ (by simp [ha])]
      rfl
    · rw [List.map_cons, if_neg ha]
      rw [List.find?_cons_of_neg _ (by simp [ha]), List.find?_cons_of_neg _ (by simp [ha])]
      exact ih

theorem dict_find_map_other {κ : Type} [DecidableEq κ] (d : List (κ × ℕ)) (k k2 : κ)
    (hne : k2 ≠ k) :
    (d.map (fun p => if p.1 = k then (k, p.2 + 1) else p)).find?
        (fun p => p.1 = k2) =
      d.find? (fun p => p.1 = k2) := by
  induction d with
  | nil => rfl
  | cons a d ih =>
    by_cases ha : a.1 = k
    · rw [List.map_cons, if_pos ha]
      rw [List.find?_cons_of_neg _ (by simp [Ne.symm hne]),
        List.find?_cons_of_neg _ (by simp [ha, Ne.symm hne])]
      exact ih
    · rw [List.map_cons, if_neg ha]
      by_cases ha2 : a.1 = k2
      · rw [List.find?_cons_of_pos _ (by simp [ha2]),
          List.find?_cons_of_pos _ (by simp [ha2])]
      · rw [List.find?_cons_of_neg _ (by simp [ha2]),
          List.find?_cons_of_neg _ (by simp [ha2])]
        exact ih

theorem dictGet_incr_self {κ : Type} [DecidableEq κ] (d : List (κ × ℕ)) (k : κ) :
    dictGet (dictIncr d k) k = dictGet d k + 1 := by
  rw [dictIncr]
  cases hf : d.find? (fun p => p.1 = k) with
  | none =>
    rw [if_neg (by simp)]
    have h2 : dictGet d k = 0 := by rw [dictGet, hf]; rfl
    rw [h2, dictGet, List.find?_append, hf]
    simp
  | some a =>
    rw [if_pos (by simp)]
    have h2 : dictGet d k = a.2 := by rw [dictGet, hf]; rfl
    rw [h2, dictGet, dict_find_map_self, hf]
    rfl

theorem dictGet_incr_other {κ : Type} [DecidableEq κ] (d : List (κ × ℕ)) (k k2 : κ)
    (hne : k2 ≠ k) : dictGet (dictIncr d k) k2 = dictGet d k2 := by
  rw [dictIncr]
  by_cases hf : (d.find? (fun p => p.1 = k)).isSome
  · rw [if_pos hf, dictGet, dict_find_map_other d k k2 hne, dictGet]
  · rw [if_neg hf, dictGet, List.find?_append, dictGet]
    have h3 : ([((k, 1) : κ × ℕ)].find? (fun p => p.1 = k2)) = none := by
      rw [List.find?_cons_of_neg _ (by simp [Ne.symm hne])]
      rfl
    rw [h3, Option.or_none]

/-- Claim C9, counterexample: committing the word "A" to an empty vocabulary
does NOT insert that word: the vocabulary check uses the cased word but the
insertion lowercases it, so afterwards "A" is still absent and "a" is stored
instead. -/
theorem claim_C9_counterexample :
    (commit kbC9 ['A'] []).map
      (fun k => (((k.words.get ['A']).isSome : Bool), ((k.words.get ['a']).isSome : Bool))) =
      some (false, true) := by
  have hmem : (['A'] : Word) ∉ kbC9.words.words := by
    intro h
    rw [show kbC9.words.words = ([] : List Word) from rfl] at h
    cases h
  have hpa : (lowerWord ['A']).mapM kbC9.key_centers = some [((0 : ℝ), (0 : ℝ))] := rfl
  have hlow : lowerWord ['A'] = (['a'] : Word) := by decide
  have hc : commit kbC9 ['A'] [] = some { kbC9 with
      user_nograms := 1
      words := Trie.empty.set ['a']
        ([((0 : ℝ), (0 : ℝ))], pathLength [((0 : ℝ), (0 : ℝ))], 0)
      user_unigrams := dictIncr [] ['A'] } := by
    rw [commit, if_neg (by simp)]
    simp only [if_neg hmem, hpa, Option.map_some', hlow]
    rfl
  rw [hc, Option.map_some']
  dsimp only
  rfl

/-- Claim C9 (amended): committing a non-empty current word (when every letter
of its lowercased form has a key center, or the cased word is already in the
vocabulary word list) increments the total committed count by 1; when the
CASED word is absent from the vocabulary it inserts its LOWERCASED form with
the layout path and static frequency 0 (the cased word itself is not
inserted — see the counterexample); it increments the cased word
unigram count by exactly 1 and leaves other unigram counts unchanged; and it
increments the (previous, current) bigram count by exactly 1 if and only if
the previous word is non-empty. -/
theorem claim_C9_amended (kb : VKeyboard) (cur prev : Word) (hcur : cur ≠ [])
    (hok : cur ∈ kb.words.words ∨ ∃ pa, (lowerWord cur).mapM kb.key_centers = some pa) :
    ∃ kb2, commit kb cur prev = some kb2 ∧
      kb2.user_nograms = kb.user_nograms + 1 ∧
      (cur ∈ kb.words.words → kb2.words = kb.words) ∧
      (∀ pa, cur ∉ kb.words.words → (lowerWord cur).mapM kb.key_centers = some pa →
        kb2.words = kb.words.set (lowerWord cur) (pa, pathLength pa, 0)) ∧
      dictGet kb2.user_unigrams cur = dictGet kb.user_unigrams cur + 1 ∧
      (∀ w2, w2 ≠ cur → dictGet kb2.user_unigrams w2 = dictGet kb.user_unigrams w2) ∧
      (prev ≠ [] →
        dictGet kb2.user_bigrams (prev, cur) = dictGet kb.user_bigrams (prev, cur) + 1) ∧
      (prev = [] → kb2.user_bigrams = kb.user_bigrams) := by
  by_cases hmem : cur ∈ kb.words.words
  · by_cases hprev : prev = []
    · refine ⟨{ kb with
          user_nograms := kb.user_nograms + 1
          user_unigrams := dictIncr kb.user_unigrams cur }, ?_, rfl, fun _ => rfl,
          fun pa hnot _ => absurd hmem hnot, dictGet_incr_self _ _,
          fun w2 hw2 => dictGet_incr_other _ _ _ hw2, fun hp => absurd hprev hp,
          fun _ => rfl⟩
      rw [commit, if_neg hcur]
      simp only [if_pos hmem, Option.map_some']
      subst hprev
      rfl
    · refine ⟨{ kb with
          user_nograms := kb.user_nograms + 1
          user_unigrams := dictIncr kb.user_unigrams cur
          user_bigrams := dictIncr kb.user_bigrams (prev, cur) }, ?_, rfl, fun _ => rfl,
          fun pa hnot _ => absurd hmem hnot, dictGet_incr_self _ _,
          fun w2 hw2 => dictGet_incr_other _ _ _ hw2,
          fun _ => dictGet_incr_self _ _, fun hp => absurd hp hprev⟩
      rw [commit, if_neg hcur]
      simp only [if_pos hmem, Option.map_some', if_neg hprev]
  · obtain ⟨pa, hpa⟩ := hok.resolve_left hmem
    by_cases hprev : prev = []
    · refine ⟨{ kb with
          user_nograms := kb.user_nograms + 1
          words := kb.words.set (lowerWord cur) (pa, pathLength pa, 0)
          user_unigrams := dictIncr kb.user_unigrams cur }, ?_, rfl,
          fun h => absurd h hmem, ?_, dictGet_incr_self _ _,
          fun w2 hw2 => dictGet_incr_other _ _ _ hw2, fun hp => absurd hprev hp,
          fun _ => rfl⟩
      · rw [commit, if_neg hcur]
        simp only [if_neg hmem, hpa, Option.map_some']
        subst hprev
        rfl
      · intro pa2 _ hpa2
        rw [hpa] at hpa2
        obtain rfl : pa = pa2 := Option.some_inj.mp hpa2
        rfl
    · refine ⟨{ kb with
          user_nograms := kb.user_nograms + 1
          words := kb.words.set (lowerWord cur) (pa, pathLength pa, 0)
          user_unigrams := dictIncr kb.user_unigrams cur
          user_bigrams := dictIncr kb.user_bigrams (prev, cur) }, ?_, rfl,
          fun h => absurd h hmem, ?_, dictGet_incr_self _ _,
          fun w2 hw2 => dictGet_incr_other _ _ _ hw2,
          fun _ => dictGet_incr_self _ _, fun hp => absurd hp hprev⟩
      · rw [commit, if_neg hcur]
        simp only [if_neg hmem, hpa, Option.map_some', if_neg hprev]
      · intro pa2 _ hpa2
        rw [hpa] at hpa2
        obtain rfl : pa = pa2 := Option.some_inj.mp hpa2
        rfl

/-- Witness for C9 (amended) at the concrete keyboard `kbEx`, committing its
stored word "a" with no previous word. -/
theorem claim_C9_amended_witness :
    ∃ kb2, commit kbEx ['a'] [] = some kb2 ∧
      kb2.user_nograms = kbEx.user_nograms + 1 ∧
      ((['a'] : Word) ∈ kbEx.words.words → kb2.words = kbEx.words) ∧
      (∀ pa, (['a'] : Word) ∉ kbEx.words.words →
        (lowerWord ['a']).mapM kbEx.key_centers = some pa →
        kb2.words = kbEx.words.set (lowerWord ['a']) (pa, pathLength pa, 0)) ∧
      dictGet kb2.user_unigrams ['a'] = dictGet kbEx.user_unigrams ['a'] + 1 ∧
      (∀ w2, w2 ≠ ['a'] → dictGet kb2.user_unigrams w2 = dictGet kbEx.user_unigrams w2) ∧
      (([] : Word) ≠ [] →
        dictGet kb2.user_bigrams ([], ['a']) = dictGet kbEx.user_bigrams ([], ['a']) + 1) ∧
      (([] : Word) = [] → kb2.user_bigrams = kbEx.user_bigrams) :=
  claim_C9_amended kbEx ['a'] [] (by simp) (Or.inl (by rw [kbEx_words]; simp))

end GestureKeyboard
